import Mathlib

/-!
Verification of the job-shop scheduling core of this repository.

The development shallowly embeds the two C translation units
(`job_shop_sequential.c` and `job_shop_parallel.c`).  Machine integers are
modelled as `Int` (values stay far below 2^31 in every construction used
here, so wrap-around never occurs), fixed-size arrays as lists indexed with
`List.getD`, and the OpenMP critical section of the parallel scheduler as a
sequential interleaving: each round executes the thread bodies one after the
other in an arbitrary order `order : List Nat` that is a permutation of
`List.range T` (each of the `T` threads runs its body exactly once per
round, in an unspecified order).

All functions are executable; the unbounded `while` loops of the C code are
modelled with explicit fuel, and termination of `find_available_time` (the
ConflictResolver) is a theorem about the fuel-indexed function.
-/

namespace JobShop

/-- An operation: machine id, processing duration, scheduled start time
(`-1` is the unscheduled sentinel, exactly as in the C struct). -/
structure Operation where
  machine : Int
  duration : Int
  start_time : Int
deriving DecidableEq, Repr

/-- Placeholder operation used as the `getD` default; it is never read at an
in-range index. -/
def dummyOp : Operation := ⟨0, 0, -1⟩

/-- The problem instance: machine count, operations per job
(`num_operations = num_machines` under the loader, but the scheduler only
reads `num_operations`), and the per-job operation rows. -/
structure JobShopProblem where
  num_machines : Int
  num_operations : Nat
  jobs : List (List Operation)
deriving Repr

/-- `jobs[j][i]` with the C array-read semantics. -/
def opAt (jobs : List (List Operation)) (j i : Nat) : Operation :=
  (jobs.getD j []).getD i dummyOp

/-- The overlap test the C code applies to two committed slots:
`a.start < b.end && b.start < a.end` (half-open intervals). -/
def opsOverlap (a b : Operation) : Prop :=
  a.start_time < b.start_time + b.duration ∧ b.start_time < a.start_time + a.duration

instance (a b : Operation) : Decidable (opsOverlap a b) :=
  inferInstanceAs (Decidable (And _ _))

/-- The conflict test of `find_available_time`: the candidate slot
`[s, e)` against an operation that is already scheduled on machine `m`. -/
def isConflict (m s e : Int) (o : Operation) : Bool :=
  decide (o.start_time ≠ -1) && decide (o.machine = m) &&
  decide (s < o.start_time + o.duration) && decide (e > o.start_time)

/-- All operations the inner scan of `find_available_time` flags as
conflicting with the candidate slot `[s, e)` on machine `m`. -/
def conflictsAt (ops : List Operation) (m s e : Int) : List Operation :=
  ops.filter (isConflict m s e)

/-- `earliest_possible` after one scan: the running maximum, seeded with the
candidate start, of the end times of all conflicting operations. -/
def nextTry (s : Int) (cs : List Operation) : Int :=
  cs.foldl (fun a o => max a (o.start_time + o.duration)) s

/-- The `while (1)` loop of `find_available_time`, indexed by fuel.
`none` models non-termination of the C loop (it is proved unreachable for
the fuel used by `find_available_time`). -/
def findAvailAux (ops : List Operation) (m d : Int) : Nat → Int → Option Int
  | 0, _ => none
  | fuel + 1, s =>
    let cs := conflictsAt ops m s (s + d)
    if cs.isEmpty then some s else findAvailAux ops m d fuel (nextTry s cs)

/-- `find_available_time(machine, duration, earliest_start)` scanning the
flattened job/operation array `ops` (identical code appears in both C
files).  The fuel `ops.length + 1` is proved sufficient below. -/
def find_available_time (ops : List Operation) (m d e : Int) : Option Int :=
  findAvailAux ops m d (ops.length + 1) e

/-- Largest end time among operations committed on machine `m`
(0 when there is none); the bound the retry value never exceeds. -/
def maxEndOn (ops : List Operation) (m : Int) : Int :=
  (ops.filter (fun o => decide (o.start_time ≠ -1) && decide (o.machine = m))).foldl
    (fun a o => max a (o.start_time + o.duration)) 0

/-- Write `start` into `jobs[j][i].start_time`, leaving every other field
and entry unchanged (the in-place commit of both schedulers). -/
def updateStart (jobs : List (List Operation)) (j i : Nat) (s : Int) :
    List (List Operation) :=
  jobs.set j ((jobs.getD j []).set i { opAt jobs j i with start_time := s })

/-- The mutable state of `schedule_jobs_sequential`: the operation rows
(whose `start_time` fields are the Schedule) plus the per-job
`scheduled_ops` and `earliest_starts` arrays. -/
structure SchedState where
  jobs : List (List Operation)
  scheduled_ops : List Nat
  earliest_starts : List Int
deriving Repr, DecidableEq

/-- One iteration of the job-selection scan: C lines
`if (scheduled_ops[job] < num_operations)
   if (earliest_starts[job] < earliest_time) { update }`. -/
def selStep (n : Nat) (so : List Nat) (es : List Int)
    (acc : Option Nat × Int) (j : Nat) : Option Nat × Int :=
  if so.getD j 0 < n ∧ es.getD j 0 < acc.2 then (some j, es.getD j 0) else acc

/-- The job-selection scan of the sequential scheduler: ascending scan over
all job indices, starting from `earliest_job = -1` (here `none`) and
`earliest_time = 999999`. -/
def selectJob (n : Nat) (so : List Nat) (es : List Int) : Option Nat :=
  ((List.range so.length).foldl (selStep n so es) (none, 999999)).1

/-- The body of the sequential scheduling loop once job `j` has been
selected: resolve the slot, commit it, advance the job's counter, and (only
while further operations remain in the job) advance its earliest start. -/
def seqStep (n : Nat) (st : SchedState) (j : Nat) : SchedState :=
  let op := st.scheduled_ops.getD j 0
  let o := opAt st.jobs j op
  match find_available_time st.jobs.flatten o.machine o.duration
      (st.earliest_starts.getD j 0) with
  | none => st
  | some start =>
    { jobs := updateStart st.jobs j op start,
      scheduled_ops := st.scheduled_ops.set j (op + 1),
      earliest_starts :=
        if op + 1 < n then st.earliest_starts.set j (start + o.duration)
        else st.earliest_starts }

/-- The `while (scheduled_count < total_ops)` loop; each pass either breaks
(no eligible job) or schedules exactly one operation, so fuel
`total_ops - scheduled_count` is an exact model of the loop condition. -/
def seqLoop (n : Nat) : Nat → SchedState → SchedState
  | 0, st => st
  | fuel + 1, st =>
    match selectJob n st.scheduled_ops st.earliest_starts with
    | none => st
    | some j => seqLoop n fuel (seqStep n st j)

/-- Initial scheduler state: the loaded rows (all start times `-1`),
`scheduled_ops` and `earliest_starts` zero-initialised. -/
def initSeqState (p : JobShopProblem) : SchedState :=
  { jobs := p.jobs,
    scheduled_ops := List.replicate p.jobs.length 0,
    earliest_starts := List.replicate p.jobs.length 0 }

/-- `schedule_jobs_sequential`. -/
def schedule_jobs_sequential (p : JobShopProblem) : SchedState :=
  seqLoop p.num_operations (p.jobs.length * p.num_operations) (initSeqState p)

/-- The makespan computed by the sequential `write_output_file`: running
maximum, seeded with 0, of `start_time + duration` over all operations
(including unscheduled ones). -/
def makespan (jobs : List (List Operation)) : Int :=
  jobs.foldl
    (fun acc row =>
      row.foldl
        (fun a o =>
          if a < o.start_time + o.duration then o.start_time + o.duration else a)
        acc)
    0

/-- The per-operation `start_time,duration` pairs `write_output_file`
prints, row by row. -/
def outputRows (jobs : List (List Operation)) : List (List (Int × Int)) :=
  jobs.map (fun row => row.map (fun o => (o.start_time, o.duration)))

/-- The data the sequential program writes to its output file after the
scheduler returns: the makespan line followed by the schedule rows.  `main`
writes this unconditionally once the input was read. -/
def seqOutput (p : JobShopProblem) : Int × List (List (Int × Int)) :=
  let st := schedule_jobs_sequential p
  (makespan st.jobs, outputRows st.jobs)

/-- The state of `schedule_with_strict_division`: the shared schedule plus
the per-job counters, the ownership table `op_assigned`, the global
`assigned_count`, and the per-thread `thread_worked` flags. -/
structure ParState where
  jobs : List (List Operation)
  scheduled_ops : List Nat
  earliest_starts : List Int
  op_assigned : List (List Nat)
  assigned_count : Nat
  thread_worked : List Bool
deriving Repr, DecidableEq

/-- The owner a thread checks for job `j`: `op_assigned[job][0]`. -/
def ow (st : ParState) (j : Nat) : Nat :=
  (st.op_assigned.getD j []).getD 0 0

/-- Commit the next operation of `job`: resolve a slot against the whole
current schedule, write the start time, bump the job's counter and
`assigned_count`, and (unconditionally, unlike the sequential code) advance
the job's earliest start. -/
def parCommit (st : ParState) (job : Nat) : ParState :=
  let op := st.scheduled_ops.getD job 0
  let o := opAt st.jobs job op
  match find_available_time st.jobs.flatten o.machine o.duration
      (st.earliest_starts.getD job 0) with
  | none => st
  | some start =>
    { st with
      jobs := updateStart st.jobs job op start,
      scheduled_ops := st.scheduled_ops.set job (op + 1),
      earliest_starts := st.earliest_starts.set job (start + o.duration),
      assigned_count := st.assigned_count + 1 }

/-- What thread `tid` does for one job inside the critical section: if it
owns the job and the job still has an unscheduled operation, commit exactly
one operation; otherwise nothing. -/
def parAdvanceJob (n : Nat) (tid : Nat) (st : ParState) (job : Nat) : ParState :=
  if ow st job = tid then
    if st.scheduled_ops.getD job 0 < n then parCommit st job else st
  else st

/-- One thread's whole turn in a round: scan all jobs in ascending order
inside the critical section, then set the thread's `thread_worked` flag if
it committed anything. -/
def runThread (n : Nat) (t : Nat) (st : ParState) : ParState :=
  let st1 := (List.range st.jobs.length).foldl (parAdvanceJob n t) st
  if st.assigned_count < st1.assigned_count then
    { st1 with thread_worked := st1.thread_worked.set t true }
  else st1

/-- One round of the parallel region: the `T` thread bodies execute one
after the other in the order `order` (the serialisation order of the
critical section). -/
def roundFn (n : Nat) (order : List Nat) (st : ParState) : ParState :=
  order.foldl (fun s t => runThread n t s) st

/-- The idle-thread scan of the stall handler: first `t < T` with
`thread_worked[t] == 0`. -/
def firstIdle (T : Nat) (tw : List Bool) : Option Nat :=
  (List.range T).find? (fun t => tw.getD t false == false)

/-- The stall handler's treatment of one job: if it still has unscheduled
operations, reassign its whole `op_assigned` row to the first idle thread
(when one exists) and clear the `all_jobs_assigned` flag.  Note the
`thread_worked` flags are not modified here. -/
def reassignStep (n T : Nat) (acc : ParState × Bool) (job : Nat) : ParState × Bool :=
  if acc.1.scheduled_ops.getD job 0 < n then
    match firstIdle T acc.1.thread_worked with
    | some t =>
      ({ acc.1 with op_assigned := acc.1.op_assigned.set job (List.replicate n t) },
       false)
    | none => acc
  else acc

/-- The whole stall handler: ascending scan over the jobs, returning the
updated state and the final `all_jobs_assigned` flag (`true` iff no
reassignment happened). -/
def reassignStuck (n T : Nat) (st : ParState) : ParState × Bool :=
  (List.range st.jobs.length).foldl (reassignStep n T) (st, true)

/-- The deadlock fallback's inner loop for one job:
`for (op = scheduled_ops[job]; op < num_operations; op++) commit;`,
fuel-indexed (fuel `n` suffices since `scheduled_ops[job] ≤ n`). -/
def completeJob (n : Nat) : Nat → ParState → Nat → ParState
  | 0, st, _ => st
  | fuel + 1, st, job =>
    if st.scheduled_ops.getD job 0 < n then completeJob n fuel (parCommit st job) job
    else st

/-- The deadlock fallback: complete every remaining operation single-threaded
in strict job-major, operation-minor order. -/
def fallbackComplete (n : Nat) (st : ParState) : ParState :=
  (List.range st.jobs.length).foldl (fun s job => completeJob n n s job) st

/-- The main `while (assigned_count < total_ops && iteration_count <
max_iterations)` loop of `schedule_with_strict_division`; `fuel` is the
number of iterations the cap still allows and `iter` indexes the
serialisation order of each round.  A stalled round (no operation newly
scheduled) runs the stall handler; if that makes no reassignment the
deadlock fallback completes everything and the loop breaks. -/
def parLoopGo (n T total : Nat) (orders : Nat → List Nat) :
    Nat → Nat → ParState → ParState
  | 0, _, st => st
  | fuel + 1, iter, st =>
    if st.assigned_count < total then
      let st1 := roundFn n (orders iter) st
      if st1.assigned_count = st.assigned_count then
        let r := reassignStuck n T st1
        if r.2 then fallbackComplete n r.1
        else parLoopGo n T total orders fuel (iter + 1) r.1
      else parLoopGo n T total orders fuel (iter + 1) st1
    else st

/-- Initial parallel state: job `j` owned by thread `j % T`, counters zero,
all `thread_worked` flags false. -/
def initParState (p : JobShopProblem) (T : Nat) : ParState :=
  { jobs := p.jobs,
    scheduled_ops := List.replicate p.jobs.length 0,
    earliest_starts := List.replicate p.jobs.length 0,
    op_assigned := (List.range p.jobs.length).map
      (fun j => List.replicate p.num_operations (j % T)),
    assigned_count := 0,
    thread_worked := List.replicate T false }

/-- `schedule_with_strict_division` run with `T` threads and serialisation
orders `orders`: the final state together with the function's return value
(`1` iff `assigned_count == total_ops`, here a `Bool`). -/
def schedule_with_strict_division (p : JobShopProblem) (T : Nat)
    (orders : Nat → List Nat) : ParState × Bool :=
  let total := p.jobs.length * p.num_operations
  let final := parLoopGo p.num_operations T total orders (total * 10) 0
    (initParState p T)
  (final, decide (final.assigned_count = total))

/-- Total operation count of a loaded problem. -/
def totalOps (p : JobShopProblem) : Nat := p.jobs.length * p.num_operations

/-- The thread-count clamping in the parallel `main`:
cap at `total_ops`, then at 8 for small problems, then raise to at least 1. -/
def effective_num_threads (nt total : Nat) : Nat :=
  let e1 := if nt > total then total else nt
  let e2 := if e1 > 8 ∧ total < 100 then 8 else e1
  if e2 < 1 then 1 else e2

/-- A valid Problem in the sense of the specification: at least one job and
one operation per job, rectangular rows, every machine id in range, every
duration nonnegative, and every operation still unscheduled (the loader
sets `start_time = -1`). -/
def ValidProblem (p : JobShopProblem) : Prop :=
  0 < p.jobs.length ∧ 0 < p.num_operations ∧
  (∀ row ∈ p.jobs, row.length = p.num_operations) ∧
  (∀ row ∈ p.jobs, ∀ o ∈ row,
    0 ≤ o.duration ∧ 0 ≤ o.machine ∧ o.machine < p.num_machines ∧
    o.start_time = -1)

instance (p : JobShopProblem) : Decidable (ValidProblem p) := by
  unfold ValidProblem; infer_instance

/-- The scheduler invariant on a schedule/counter/earliest-start triple.
`so.getD j 0` operations of job `j` are committed; committed operations
have been committed consistently. -/
structure Inv (n : Nat) (jobs : List (List Operation)) (so : List Nat)
    (es : List Int) : Prop where
  so_len : so.length = jobs.length
  es_len : es.length = jobs.length
  rows_len : ∀ row ∈ jobs, row.length = n
  so_le : ∀ j, j < jobs.length → so.getD j 0 ≤ n
  dur_nonneg : ∀ j, j < jobs.length → ∀ i, i < n → 0 ≤ (opAt jobs j i).duration
  sched_iff : ∀ j, j < jobs.length → ∀ i, i < n →
    ((opAt jobs j i).start_time ≠ -1 ↔ i < so.getD j 0)
  start_nonneg : ∀ j, j < jobs.length → ∀ i, i < so.getD j 0 →
    0 ≤ (opAt jobs j i).start_time
  prec : ∀ j, j < jobs.length → ∀ i, i + 1 < so.getD j 0 →
    (opAt jobs j i).start_time + (opAt jobs j i).duration ≤
      (opAt jobs j (i + 1)).start_time
  es_ok : ∀ j, j < jobs.length → 0 ≤ es.getD j 0 ∧
    (so.getD j 0 < n → 0 < so.getD j 0 →
      (opAt jobs j (so.getD j 0 - 1)).start_time +
        (opAt jobs j (so.getD j 0 - 1)).duration ≤ es.getD j 0)
  no_overlap : ∀ j1, j1 < jobs.length → ∀ i1, i1 < so.getD j1 0 →
    ∀ j2, j2 < jobs.length → ∀ i2, i2 < so.getD j2 0 →
    (j1 ≠ j2 ∨ i1 ≠ i2) →
    (opAt jobs j1 i1).machine = (opAt jobs j2 i2).machine →
    ¬ opsOverlap (opAt jobs j1 i1) (opAt jobs j2 i2)

/-- The three schedule properties of the specification, stated over the
committed part of a schedule (an operation is committed iff its
`start_time` is not the `-1` sentinel): nonnegative start times, within-job
precedence, and machine exclusivity under half-open semantics. -/
def ScheduleSound (n : Nat) (jobs : List (List Operation)) : Prop :=
  (∀ j, j < jobs.length → ∀ i, i < n → (opAt jobs j i).start_time ≠ -1 →
    0 ≤ (opAt jobs j i).start_time) ∧
  (∀ j, j < jobs.length → ∀ i, i + 1 < n → (opAt jobs j (i + 1)).start_time ≠ -1 →
    (opAt jobs j i).start_time + (opAt jobs j i).duration ≤
      (opAt jobs j (i + 1)).start_time) ∧
  (∀ j1, j1 < jobs.length → ∀ i1, i1 < n →
    ∀ j2, j2 < jobs.length → ∀ i2, i2 < n →
    (opAt jobs j1 i1).start_time ≠ -1 → (opAt jobs j2 i2).start_time ≠ -1 →
    (j1 ≠ j2 ∨ i1 ≠ i2) →
    (opAt jobs j1 i1).machine = (opAt jobs j2 i2).machine →
    ¬ opsOverlap (opAt jobs j1 i1) (opAt jobs j2 i2))

/-- The parallel scheduler's full invariant: the shared-schedule invariant
plus well-formedness of the coordination state (`L` is the job count,
`T` the thread count). -/
structure PInv (n T L : Nat) (st : ParState) : Prop where
  jobs_len : st.jobs.length = L
  inv : Inv n st.jobs st.scheduled_ops st.earliest_starts
  oa_len : st.op_assigned.length = L
  ow_lt : ∀ j, j < L → ow st j < T
  tw_len : st.thread_worked.length = T
  count_eq : st.assigned_count = st.scheduled_ops.sum

/-- The end-to-end example instance of the specification:
job0 = [(m0,d3),(m1,d2)], job1 = [(m1,d2),(m0,d4)]. -/
def p4 : JobShopProblem :=
  ⟨2, 2, [[⟨0, 3, -1⟩, ⟨1, 2, -1⟩], [⟨1, 2, -1⟩, ⟨0, 4, -1⟩]]⟩

/-- A valid problem whose first operation drives the job's earliest start to
exactly the 999999 sentinel, so the selection scan finds no eligible job
while its second operation is still unscheduled. -/
def pSentinel : JobShopProblem :=
  ⟨1, 2, [[⟨0, 999999, -1⟩, ⟨0, 1, -1⟩]]⟩

/-- A loadable problem with zero jobs (the parallel loader accepts a job
count of 0), so its total operation count is 0. -/
def pZero : JobShopProblem := ⟨3, 3, []⟩

/-- A coordination state with two stuck jobs (no operation committed yet)
and two idle threads (1 and 2); thread 0 has already progressed. -/
def stC7 : ParState :=
  ⟨[[⟨0, 1, -1⟩], [⟨0, 1, -1⟩]], [0, 0], [0, 0], [[0], [0]], 0,
   [true, false, false]⟩

/-- A sequential state in which the single job has one committed operation
ending at the sentinel 999999 and one unscheduled operation. -/
def stBreak : SchedState :=
  ⟨[[⟨0, 999999, 0⟩, ⟨0, 1, -1⟩]], [1], [999999]⟩

/-- Number of committed operations on machine `m` whose end time lies
strictly after the candidate `s`; the termination measure of the
ConflictResolver loop. -/
def blockCount (ops : List Operation) (m s : Int) : Nat :=
  ops.countP fun o =>
    decide (o.start_time ≠ -1) && decide (o.machine = m) &&
    decide (s < o.start_time + o.duration)

/-- A one-element committed-operation list used to instantiate the
ConflictResolver theorems: machine 0 is busy on `[0, 3)`. -/
def ops0 : List Operation := [⟨0, 3, 0⟩]

/-- Invariant of the job-selection scan after the first `k` indices have
been examined: the accumulator holds the first index attaining the minimum
of the earliest starts of the eligible jobs among them, still filtered by
the strict comparison against the initial 999999. -/
def SelAcc (n : Nat) (so : List Nat) (es : List Int) (k : Nat)
    (acc : Option Nat × Int) : Prop :=
  (acc.1 = none → acc.2 = 999999) ∧
  (∀ j, acc.1 = some j → j < k ∧ so.getD j 0 < n ∧ es.getD j 0 = acc.2) ∧
  (∀ i, i < k → so.getD i 0 < n → acc.2 ≤ es.getD i 0) ∧
  (∀ j, acc.1 = some j → ∀ i, i < j → so.getD i 0 < n → acc.2 < es.getD i 0)

/-! ### List helper lemmas -/

theorem getD_eq_getElem (l : List α) (d : α) {j : Nat} (h : j < l.length) :
    l.getD j d = l[j] := by
  rw [List.getD_eq_getElem?_getD, List.getElem?_eq_getElem h]
  rfl

theorem getD_of_le (l : List α) (d : α) {j : Nat} (h : l.length ≤ j) :
    l.getD j d = d := by
  simp [List.getD_eq_getElem?_getD, List.getElem?_eq_none h]

theorem getD_set_self (l : List α) {j : Nat} (a d : α) (h : j < l.length) :
    (l.set j a).getD j d = a := by
  rw [getD_eq_getElem _ _ (by simpa using h)]
  exact List.getElem_set_self _

theorem getD_set_ne (l : List α) {i j : Nat} (a d : α) (h : i ≠ j) :
    (l.set j a).getD i d = l.getD i d := by
  rw [List.getD_eq_getElem?_getD, List.getD_eq_getElem?_getD,
    List.getElem?_set_ne (by omega)]

theorem getD_mem (l : List α) (d : α) {j : Nat} (h : j < l.length) :
    l.getD j d ∈ l := by
  rw [getD_eq_getElem _ _ h]
  exact List.getElem_mem h

theorem getD_replicate {n j : Nat} (a d : α) (h : j < n) :
    (List.replicate n a).getD j d = a := by
  simp [List.getD_eq_getElem?_getD, List.getElem?_replicate, h]

theorem countP_mono_aux (p q : α → Bool) :
    ∀ (l : List α), (∀ x ∈ l, q x = true → p x = true) →
      l.countP q ≤ l.countP p := by
  intro l
  induction l with
  | nil => intro _; simp
  | cons a l ih =>
    intro h
    rw [List.countP_cons, List.countP_cons]
    have hl := ih fun x hx => h x (List.mem_cons_of_mem a hx)
    by_cases hq : q a = true
    · rw [hq, h a (List.mem_cons_self a l) hq]
      omega
    · rw [Bool.not_eq_true] at hq
      rw [hq]
      simp only [Bool.false_eq_true, if_false]
      split <;> omega

theorem countP_strict_aux (p q : α → Bool) :
    ∀ (l : List α), (∀ x ∈ l, q x = true → p x = true) →
      ∀ c ∈ l, p c = true → q c = false → l.countP q < l.countP p := by
  intro l
  induction l with
  | nil => intro _ c hc; exact absurd hc (List.not_mem_nil c)
  | cons a l ih =>
    intro h c hc hp hq
    rw [List.countP_cons, List.countP_cons]
    have hmono := countP_mono_aux p q l fun x hx => h x (List.mem_cons_of_mem a hx)
    rcases List.mem_cons.mp hc with rfl | hcl
    · rw [hp, hq]
      simp only [Bool.false_eq_true, if_false, if_true]
      omega
    · have := ih (fun x hx => h x (List.mem_cons_of_mem a hx)) c hcl hp hq
      by_cases hqa : q a = true
      · rw [hqa, h a (List.mem_cons_self a l) hqa]; omega
      · rw [Bool.not_eq_true] at hqa
        rw [hqa]
        simp only [Bool.false_eq_true, if_false]
        split <;> omega

/-! ### ConflictResolver (`find_available_time`) lemmas -/

theorem foldl_max_init_le :
    ∀ (l : List Operation) (a b : Int), a ≤ b →
      a ≤ l.foldl (fun x o => max x (o.start_time + o.duration)) b := by
  intro l
  induction l with
  | nil => intro a b h; simpa using h
  | cons o l ih =>
    intro a b h
    exact ih a _ (le_trans h (le_max_left _ _))

theorem foldl_max_le_of_mem :
    ∀ (l : List Operation) (a : Int) (o : Operation), o ∈ l →
      o.start_time + o.duration ≤
        l.foldl (fun x o2 => max x (o2.start_time + o2.duration)) a := by
  intro l
  induction l with
  | nil => intro a o h; exact absurd h (List.not_mem_nil o)
  | cons b l ih =>
    intro a o h
    rcases List.mem_cons.mp h with rfl | hl
    · exact foldl_max_init_le l _ _ (le_max_right _ _)
    · exact ih _ o hl

theorem foldl_max_cases :
    ∀ (l : List Operation) (a : Int),
      l.foldl (fun x o => max x (o.start_time + o.duration)) a = a ∨
      ∃ o ∈ l, l.foldl (fun x o => max x (o.start_time + o.duration)) a =
        o.start_time + o.duration := by
  intro l
  induction l with
  | nil => intro a; left; rfl
  | cons b l ih =>
    intro a
    rcases ih (max a (b.start_time + b.duration)) with h | ⟨o, ho, h⟩
    · rcases max_choice a (b.start_time + b.duration) with hm | hm
      · left; rw [List.foldl_cons, h, hm]
      · right
        exact ⟨b, List.mem_cons_self b l, by rw [List.foldl_cons, h, hm]⟩
    · right
      exact ⟨o, List.mem_cons_of_mem b ho, by rw [List.foldl_cons, h]⟩

theorem isConflict_iff {m s e : Int} {o : Operation} :
    isConflict m s e o = true ↔
      o.start_time ≠ -1 ∧ o.machine = m ∧
      s < o.start_time + o.duration ∧ e > o.start_time := by
  simp [isConflict, Bool.and_eq_true, decide_eq_true_iff, and_assoc]

theorem mem_conflictsAt {ops : List Operation} {m s e : Int} {o : Operation} :
    o ∈ conflictsAt ops m s e ↔ o ∈ ops ∧ isConflict m s e o = true :=
  List.mem_filter

theorem le_nextTry (s : Int) (cs : List Operation) : s ≤ nextTry s cs :=
  foldl_max_init_le cs s s le_rfl

theorem end_le_nextTry {s : Int} {cs : List Operation} {o : Operation}
    (h : o ∈ cs) : o.start_time + o.duration ≤ nextTry s cs :=
  foldl_max_le_of_mem cs s o h

theorem nextTry_gt {ops : List Operation} {m s e : Int}
    (h : conflictsAt ops m s e ≠ []) : s < nextTry s (conflictsAt ops m s e) := by
  obtain ⟨o, ho⟩ := List.exists_mem_of_ne_nil _ h
  have hc := (mem_conflictsAt.mp ho).2
  have hse := (isConflict_iff.mp hc).2.2.1
  exact lt_of_lt_of_le hse (end_le_nextTry ho)

theorem mem_le_maxEndOn {ops : List Operation} {m : Int} {o : Operation}
    (h : o ∈ ops) (hs : o.start_time ≠ -1) (hm : o.machine = m) :
    o.start_time + o.duration ≤ maxEndOn ops m := by
  apply foldl_max_le_of_mem
  exact List.mem_filter.mpr ⟨h, by simp [hs, hm]⟩

theorem nextTry_le_maxEndOn {ops : List Operation} {m s e : Int}
    (h : conflictsAt ops m s e ≠ []) :
    nextTry s (conflictsAt ops m s e) ≤ maxEndOn ops m := by
  rcases foldl_max_cases (conflictsAt ops m s e) s with hc | ⟨o, ho, hc⟩
  · exact absurd (show s < nextTry s (conflictsAt ops m s e) from nextTry_gt h)
      (by rw [show nextTry s (conflictsAt ops m s e) = s from hc]; exact lt_irrefl s)
  · have hmem := mem_conflictsAt.mp ho
    have hp := isConflict_iff.mp hmem.2
    rw [show nextTry s (conflictsAt ops m s e) = o.start_time + o.duration from hc]
    exact mem_le_maxEndOn hmem.1 hp.1 hp.2.1

theorem blockCount_next_lt {ops : List Operation} {m s d : Int}
    (h : conflictsAt ops m s (s + d) ≠ []) :
    blockCount ops m (nextTry s (conflictsAt ops m s (s + d))) < blockCount ops m s := by
  have hlt : s < nextTry s (conflictsAt ops m s (s + d)) := nextTry_gt h
  rcases foldl_max_cases (conflictsAt ops m s (s + d)) s with hc | ⟨c, hcmem, hc⟩
  · exact absurd hlt
      (by rw [show nextTry s (conflictsAt ops m s (s + d)) = s from hc]
          exact lt_irrefl s)
  · have hceq : nextTry s (conflictsAt ops m s (s + d)) =
      c.start_time + c.duration := hc
    have hcm := mem_conflictsAt.mp hcmem
    have hcp := isConflict_iff.mp hcm.2
    refine countP_strict_aux _ _ ops ?_ c hcm.1 ?_ ?_
    · intro x hx hq
      simp only [Bool.and_eq_true, decide_eq_true_iff] at hq ⊢
      exact ⟨hq.1, lt_of_le_of_lt (le_of_lt hlt) hq.2⟩
    · simp only [Bool.and_eq_true, decide_eq_true_iff]
      exact ⟨⟨hcp.1, hcp.2.1⟩, hcp.2.2.1⟩
    · have hirr : ¬ (nextTry s (conflictsAt ops m s (s + d)) <
        c.start_time + c.duration) := by
        rw [hceq]
        exact lt_irrefl _
      simp [hirr]

theorem findAvailAux_isSome {ops : List Operation} {m d : Int} :
    ∀ (fuel : Nat) (s : Int), blockCount ops m s < fuel →
      (findAvailAux ops m d fuel s).isSome = true := by
  intro fuel
  induction fuel with
  | zero => intro s h; exact absurd h (by omega)
  | succ fuel ih =>
    intro s h
    rw [findAvailAux]
    by_cases hc : (conflictsAt ops m s (s + d)).isEmpty
    · simp [hc]
    · simp only [hc, Bool.false_eq_true, if_false]
      apply ih
      have hne : conflictsAt ops m s (s + d) ≠ [] := by
        intro hnil; rw [hnil] at hc; exact hc rfl
      have := @blockCount_next_lt ops m s d hne
      omega

theorem find_available_time_isSome (ops : List Operation) (m d e : Int) :
    (find_available_time ops m d e).isSome = true := by
  apply findAvailAux_isSome
  have : blockCount ops m e ≤ ops.length := List.countP_le_length _
  omega

theorem findAvailAux_ge {ops : List Operation} {m d : Int} :
    ∀ (fuel : Nat) (s r : Int), findAvailAux ops m d fuel s = some r → s ≤ r := by
  intro fuel
  induction fuel with
  | zero => intro s r h; exact absurd h (by simp [findAvailAux])
  | succ fuel ih =>
    intro s r h
    rw [findAvailAux] at h
    by_cases hc : (conflictsAt ops m s (s + d)).isEmpty
    · rw [if_pos hc] at h
      rw [Option.some.injEq] at h
      omega
    · rw [if_neg hc] at h
      exact le_trans (le_nextTry s _) (ih _ r h)

theorem findAvailAux_clear {ops : List Operation} {m d : Int} :
    ∀ (fuel : Nat) (s r : Int), findAvailAux ops m d fuel s = some r →
      conflictsAt ops m r (r + d) = [] := by
  intro fuel
  induction fuel with
  | zero => intro s r h; exact absurd h (by simp [findAvailAux])
  | succ fuel ih =>
    intro s r h
    rw [findAvailAux] at h
    by_cases hc : (conflictsAt ops m s (s + d)).isEmpty
    · simp only [hc, if_true, Option.some.injEq] at h
      rw [← h]
      exact List.isEmpty_iff.mp hc
    · simp only [hc, Bool.false_eq_true, if_false] at h
      exact ih _ r h

theorem find_ge {ops : List Operation} {m d e r : Int}
    (h : find_available_time ops m d e = some r) : e ≤ r :=
  findAvailAux_ge _ e r h

theorem find_no_conflict {ops : List Operation} {m d e r : Int}
    (h : find_available_time ops m d e = some r) :
    ∀ o ∈ ops, o.start_time ≠ -1 → o.machine = m →
      ¬ opsOverlap ⟨m, d, r⟩ o := by
  intro o ho hs hm hov
  have hclear := findAvailAux_clear _ e r h
  have : o ∈ conflictsAt ops m r (r + d) := by
    apply mem_conflictsAt.mpr
    refine ⟨ho, isConflict_iff.mpr ⟨hs, hm, ?_, ?_⟩⟩
    · exact hov.1
    · exact hov.2
  rw [hclear] at this
  exact List.not_mem_nil o this

theorem find_some {ops : List Operation} (m d e : Int) :
    ∃ r, find_available_time ops m d e = some r := by
  have := find_available_time_isSome ops m d e
  exact Option.isSome_iff_exists.mp this

/-- Claim C2: for every machine id, duration ≥ 0 and earliest start ≥ 0,
`find_available_time` returns a value ≥ `earliest_start` whose slot
`[result, result+duration)` does not overlap any operation already
committed on that machine, and after committing the returned slot a
re-invocation with the same parameters never reports overlap with that
commitment. -/
theorem C2_find_slot_correct (ops : List Operation) (m d e : Int)
    (hd : 0 ≤ d) (he : 0 ≤ e) (r : Int)
    (hr : find_available_time ops m d e = some r) :
    e ≤ r ∧
    (∀ o ∈ ops, o.start_time ≠ -1 → o.machine = m →
      ¬ opsOverlap ⟨m, d, r⟩ o) ∧
    (∀ r2, find_available_time ((⟨m, d, r⟩ : Operation) :: ops) m d e = some r2 →
      ¬ opsOverlap ⟨m, d, r2⟩ (⟨m, d, r⟩ : Operation)) := by
  refine ⟨find_ge hr, find_no_conflict hr, ?_⟩
  intro r2 hr2
  have hr0 : (⟨m, d, r⟩ : Operation).start_time ≠ -1 := by
    have h1 := find_ge hr
    simp only [Operation.mk.injEq]
    omega
  exact find_no_conflict hr2 _ (List.mem_cons_self _ _) hr0 rfl

/-- Witness for C2 on the concrete state `ops0` (machine 0 busy on
`[0, 3)`): asking for duration 2 from earliest start 1 yields slot 3. -/
theorem C2_find_slot_correct_witness :
    (0 : Int) ≤ 2 ∧ (0 : Int) ≤ 1 ∧
    find_available_time ops0 0 2 1 = some 3 ∧ (1 : Int) ≤ 3 := by
  refine ⟨by decide, by decide, by decide, ?_⟩
  exact (C2_find_slot_correct ops0 0 2 1 (by decide) (by decide) 3 (by decide)).1

/-- Claim C3: `find_available_time` terminates on every input with
duration ≥ 0 and any finite committed-operation list (zero-duration
commitments included): the fuelled loop returns a result, and on every
conflicting candidate the retry value strictly increases while staying
bounded by the largest committed end time on the machine. -/
theorem C3_find_terminates (ops : List Operation) (m d e : Int) (hd : 0 ≤ d) :
    (find_available_time ops m d e).isSome = true ∧
    (∀ s : Int, conflictsAt ops m s (s + d) ≠ [] →
      s < nextTry s (conflictsAt ops m s (s + d)) ∧
      nextTry s (conflictsAt ops m s (s + d)) ≤ maxEndOn ops m) :=
  ⟨find_available_time_isSome ops m d e,
   fun _ h => ⟨nextTry_gt h, nextTry_le_maxEndOn h⟩⟩

/-- Witness for C3 on `ops0`: the call terminates and the conflicting
candidate 1 is strictly raised by the retry. -/
theorem C3_find_terminates_witness :
    (0 : Int) ≤ 2 ∧ (find_available_time ops0 0 2 1).isSome = true ∧
    (1 : Int) < nextTry 1 (conflictsAt ops0 0 1 (1 + 2)) := by
  refine ⟨by decide, (C3_find_terminates ops0 0 2 1 (by decide)).1, ?_⟩
  exact ((C3_find_terminates ops0 0 2 1 (by decide)).2 1 (by decide)).1

/-! ### Job-selection scan lemmas -/

theorem selAcc_step {n : Nat} {so : List Nat} {es : List Int} {k : Nat}
    {acc : Option Nat × Int} (h : SelAcc n so es k acc) :
    SelAcc n so es (k + 1) (selStep n so es acc k) := by
  obtain ⟨h1, h2, h3, h4⟩ := h
  unfold selStep
  by_cases hcond : so.getD k 0 < n ∧ es.getD k 0 < acc.2
  · rw [if_pos hcond]
    refine ⟨by simp, ?_, ?_, ?_⟩
    · intro j hj
      simp only [Option.some.injEq] at hj
      subst hj
      exact ⟨Nat.lt_succ_self k, hcond.1, rfl⟩
    · intro i hi hison
      rcases Nat.lt_succ_iff_lt_or_eq.mp hi with hik | rfl
      · exact le_trans (le_of_lt hcond.2) (h3 i hik hison)
      · exact le_rfl
    · intro j hj i hij hison
      simp only [Option.some.injEq] at hj
      subst hj
      exact lt_of_lt_of_le hcond.2 (h3 i hij hison)
  · rw [if_neg hcond]
    refine ⟨h1, ?_, ?_, h4⟩
    · intro j hj
      obtain ⟨ha, hb, hc⟩ := h2 j hj
      exact ⟨Nat.lt_succ_of_lt ha, hb, hc⟩
    · intro i hi hison
      rcases Nat.lt_succ_iff_lt_or_eq.mp hi with hik | rfl
      · exact h3 i hik hison
      · by_contra hlt
        exact hcond ⟨hison, by omega⟩

theorem selAcc_range (n : Nat) (so : List Nat) (es : List Int) :
    ∀ k, SelAcc n so es k
      ((List.range k).foldl (selStep n so es) (none, 999999)) := by
  intro k
  induction k with
  | zero =>
    refine ⟨fun _ => rfl, ?_, ?_, ?_⟩
    · intro j hj; exact absurd hj (by simp [List.range_zero])
    · intro i hi; omega
    · intro j hj; exact absurd hj (by simp [List.range_zero])
  | succ k ih =>
    rw [List.range_succ, List.foldl_append]
    exact selAcc_step ih

theorem selectJob_some_spec {n : Nat} {so : List Nat} {es : List Int} {j : Nat}
    (h : selectJob n so es = some j) :
    j < so.length ∧ so.getD j 0 < n ∧
    (∀ k, k < so.length → so.getD k 0 < n → es.getD j 0 ≤ es.getD k 0) ∧
    (∀ k, k < so.length → so.getD k 0 < n → es.getD k 0 = es.getD j 0 → j ≤ k) := by
  obtain ⟨_, h2, h3, h4⟩ := selAcc_range n so es so.length
  unfold selectJob at h
  obtain ⟨hj1, hj2, hj3⟩ := h2 j h
  refine ⟨hj1, hj2, ?_, ?_⟩
  · intro k hk hkn
    rw [hj3]
    exact h3 k hk hkn
  · intro k hk hkn heq
    by_contra hlt
    have := h4 j h k (by omega) hkn
    rw [heq, hj3] at this
    exact lt_irrefl _ this

theorem selectJob_none_spec {n : Nat} {so : List Nat} {es : List Int}
    (h : selectJob n so es = none) :
    ∀ k, k < so.length → so.getD k 0 < n → 999999 ≤ es.getD k 0 := by
  obtain ⟨h1, _, h3, _⟩ := selAcc_range n so es so.length
  unfold selectJob at h
  intro k hk hkn
  have := h3 k hk hkn
  rw [h1 h] at this
  exact this

theorem selectJob_isSome_of {n : Nat} {so : List Nat} {es : List Int}
    (h : ∃ j, j < so.length ∧ so.getD j 0 < n ∧ es.getD j 0 < 999999) :
    (selectJob n so es).isSome = true := by
  obtain ⟨j, hj, hjn, hje⟩ := h
  cases hsel : selectJob n so es with
  | none => exact absurd (selectJob_none_spec hsel j hj hjn) (by omega)
  | some k => rfl

/-- Claim C5: in every iteration of the sequential scheduler's main loop,
whenever the selection scan (`selectJob`, the loop's only selection
mechanism) selects a job, that job has remaining operations, its recorded
earliest-start is minimal among all jobs with remaining operations, and on
ties the lowest job index is chosen. -/
theorem C5_select_min_first (n : Nat) (so : List Nat) (es : List Int) (j : Nat)
    (h : selectJob n so es = some j) :
    j < so.length ∧ so.getD j 0 < n ∧
    (∀ k, k < so.length → so.getD k 0 < n → es.getD j 0 ≤ es.getD k 0) ∧
    (∀ k, k < so.length → so.getD k 0 < n → es.getD k 0 = es.getD j 0 → j ≤ k) :=
  selectJob_some_spec h

/-- Witness for C5: with two eligible jobs tied at earliest start 3 the
scan selects job 0, the lower index. -/
theorem C5_select_min_first_witness :
    selectJob 2 [0, 0] [(3 : Int), 3] = some 0 ∧
    ([(3 : Int), 3].getD 0 0 ≤ [(3 : Int), 3].getD 1 0) ∧ (0 : Nat) ≤ 1 := by
  have h := C5_select_min_first 2 [0, 0] [(3 : Int), 3] 0 (by decide)
  exact ⟨by decide, h.2.2.1 1 (by decide) (by decide),
    h.2.2.2 1 (by decide) (by decide) (by decide)⟩

/-- Claim C10: the selection scan compares earliest starts against the
hard-coded 999999 sentinel with strict less-than, so while some job with
remaining operations keeps its earliest start strictly below 999999 an
eligible job is always found (the break branch is unreachable under that
precondition); and the bound is a real precondition: on the valid problem
`pSentinel`, whose first operation ends exactly at 999999, the loop exits
early leaving the second operation unscheduled. -/
theorem C10_sentinel_bound :
    (∀ (n : Nat) (so : List Nat) (es : List Int),
      (∃ j, j < so.length ∧ so.getD j 0 < n ∧ es.getD j 0 < 999999) →
      (selectJob n so es).isSome = true) ∧
    (ValidProblem pSentinel ∧
      (opAt (schedule_jobs_sequential pSentinel).jobs 0 1).start_time = -1 ∧
      (schedule_jobs_sequential pSentinel).scheduled_ops = [1]) := by
  constructor
  · intro n so es h
    exact selectJob_isSome_of h
  · exact ⟨by decide, by decide, by decide⟩

/-- Witness for C10: an eligible job below the sentinel is found, and the
`pSentinel` run indeed strands its second operation. -/
theorem C10_sentinel_bound_witness :
    (selectJob 1 [0] [(0 : Int)]).isSome = true ∧
    (opAt (schedule_jobs_sequential pSentinel).jobs 0 1).start_time = -1 :=
  ⟨C10_sentinel_bound.1 1 [0] [(0 : Int)] ⟨0, by decide, by decide, by decide⟩,
   C10_sentinel_bound.2.2.1⟩

/-- Claim C4: on the two-job, two-machine example instance the sequential
scheduler assigns starts job0 = (0, 3) and job1 = (0, 3), and the makespan
written by `write_output_file` is 7. -/
theorem C4_example_schedule :
    (schedule_jobs_sequential p4).jobs =
      [[⟨0, 3, 0⟩, ⟨1, 2, 3⟩], [⟨1, 2, 0⟩, ⟨0, 4, 3⟩]] ∧
    makespan (schedule_jobs_sequential p4).jobs = 7 :=
  ⟨by decide, by decide⟩

/-- Counterexample to claim C1 as stated: `pSentinel` is a valid problem
(machine ids in range, durations ≥ 0, at least one operation), yet after
the sequential scheduler completes, operation 1 of job 0 still carries the
unscheduled sentinel, so its start time is not ≥ 0. -/
theorem C1_counterexample :
    ValidProblem pSentinel ∧
    ¬ (0 ≤ (opAt (schedule_jobs_sequential pSentinel).jobs 0 1).start_time) :=
  ⟨by decide, by decide⟩

/-- Counterexample to claim C6 as stated: on the valid problem `pSentinel`
the sequential scheduler hits the no-eligible-job break, yet the run is not
aborted: the program still writes the output rows, which expose the
partial schedule (the pair `(-1, 1)` is the unscheduled sentinel). -/
theorem C6_counterexample :
    ValidProblem pSentinel ∧
    (seqOutput pSentinel).2 = [[((0 : Int), (999999 : Int)), (-1, 1)]] :=
  ⟨by decide, by decide⟩

/-- Amended claim C6: when no eligible job is found the sequential
scheduling loop simply breaks, returning the partial schedule unchanged to
its caller (which unconditionally writes it out, sentinel values included,
as the `pSentinel` run shows); no abort happens. -/
theorem C6_amended_partial_exposed :
    (∀ (n fuel : Nat) (st : SchedState),
      selectJob n st.scheduled_ops st.earliest_starts = none →
      seqLoop n fuel st = st) ∧
    (seqOutput pSentinel).2 = [[((0 : Int), (999999 : Int)), (-1, 1)]] := by
  constructor
  · intro n fuel st h
    cases fuel with
    | zero => rfl
    | succ fuel => rw [seqLoop, h]
  · decide

/-- Witness for the amended C6 on the concrete stranded state `stBreak`. -/
theorem C6_amended_partial_exposed_witness :
    seqLoop 2 3 stBreak = stBreak ∧
    (seqOutput pSentinel).2 = [[((0 : Int), (999999 : Int)), (-1, 1)]] :=
  ⟨C6_amended_partial_exposed.1 2 3 stBreak (by decide),
   C6_amended_partial_exposed.2⟩

/-! ### Commit lemmas shared by both schedulers -/

theorem opsOverlap_symm {a b : Operation} (h : opsOverlap a b) : opsOverlap b a :=
  ⟨h.2, h.1⟩

theorem length_updateStart (jobs : List (List Operation)) (j i : Nat) (s : Int) :
    (updateStart jobs j i s).length = jobs.length :=
  List.length_set ..

theorem row_updateStart_self {jobs : List (List Operation)} {j : Nat}
    (i : Nat) (s : Int) (hj : j < jobs.length) :
    (updateStart jobs j i s).getD j [] =
      (jobs.getD j []).set i { opAt jobs j i with start_time := s } :=
  getD_set_self _ _ _ hj

theorem row_updateStart_ne {jobs : List (List Operation)} {k j : Nat}
    (i : Nat) (s : Int) (h : k ≠ j) :
    (updateStart jobs j i s).getD k [] = jobs.getD k [] :=
  getD_set_ne _ _ _ h

theorem opAt_updateStart_self {jobs : List (List Operation)} {j i : Nat}
    (s : Int) (hj : j < jobs.length) (hi : i < (jobs.getD j []).length) :
    opAt (updateStart jobs j i s) j i = { opAt jobs j i with start_time := s } := by
  unfold opAt
  rw [row_updateStart_self i s hj, getD_set_self _ _ _ hi]
  rfl

theorem opAt_updateStart_ne {jobs : List (List Operation)} {j i k l : Nat}
    (s : Int) (h : k ≠ j ∨ l ≠ i) :
    opAt (updateStart jobs j i s) k l = opAt jobs k l := by
  by_cases hk : k = j
  · subst hk
    have hl : l ≠ i := h.resolve_left (fun hc => hc rfl)
    unfold opAt
    by_cases hj : k < jobs.length
    · rw [row_updateStart_self i s hj, getD_set_ne _ _ _ hl]
    · unfold updateStart
      rw [List.set_eq_of_length_le (by omega)]
  · unfold opAt
    rw [row_updateStart_ne i s hk]

theorem opAt_mem_flatten {jobs : List (List Operation)} {j i : Nat}
    (hj : j < jobs.length) (hi : i < (jobs.getD j []).length) :
    opAt jobs j i ∈ jobs.flatten :=
  List.mem_flatten.mpr ⟨jobs.getD j [], getD_mem _ _ hj, getD_mem _ _ hi⟩

/-- The shared commit step: writing the slot `start` returned by
`find_available_time` into the next operation of job `j` and bumping the
job's counter preserves the scheduler invariant, for any updated
earliest-start table `es2` that is nonnegative, agrees with `es` away from
`j`, and (when the job still has operations left) dominates the new
operation's end time. -/
theorem commit_preserves {n : Nat} {jobs : List (List Operation)} {so : List Nat}
    {es es2 : List Int}
    (inv : Inv n jobs so es) {j : Nat} (hj : j < jobs.length)
    (hop : so.getD j 0 < n) {e start : Int}
    (he0 : 0 ≤ e)
    (hePrec : 0 < so.getD j 0 →
      (opAt jobs j (so.getD j 0 - 1)).start_time +
        (opAt jobs j (so.getD j 0 - 1)).duration ≤ e)
    (hfind : find_available_time jobs.flatten
      (opAt jobs j (so.getD j 0)).machine
      (opAt jobs j (so.getD j 0)).duration e = some start)
    (hes2len : es2.length = jobs.length)
    (hes2nonneg : ∀ k, k < jobs.length → 0 ≤ es2.getD k 0)
    (hes2j : so.getD j 0 + 1 < n →
      start + (opAt jobs j (so.getD j 0)).duration ≤ es2.getD j 0)
    (hes2ne : ∀ k, k < jobs.length → k ≠ j → es2.getD k 0 = es.getD k 0) :
    Inv n (updateStart jobs j (so.getD j 0) start)
      (so.set j (so.getD j 0 + 1)) es2 := by
  have hjso : j < so.length := by rw [inv.so_len]; exact hj
  have hrowlen : (jobs.getD j []).length = n :=
    inv.rows_len _ (getD_mem _ _ hj)
  have hi : so.getD j 0 < (jobs.getD j []).length := by rw [hrowlen]; exact hop
  have hstart_ge : e ≤ start := find_ge hfind
  have hstart0 : 0 ≤ start := le_trans he0 hstart_ge
  have hdur0 : 0 ≤ (opAt jobs j (so.getD j 0)).duration :=
    inv.dur_nonneg j hj _ hop
  have hnoc := find_no_conflict hfind
  have hAtSelf : opAt (updateStart jobs j (so.getD j 0) start) j (so.getD j 0) =
    { opAt jobs j (so.getD j 0) with start_time := start } :=
    opAt_updateStart_self start hj hi
  have hso2self : (so.set j (so.getD j 0 + 1)).getD j 0 = so.getD j 0 + 1 :=
    getD_set_self _ _ _ hjso
  have hso2ne : ∀ k, k ≠ j → (so.set j (so.getD j 0 + 1)).getD k 0 = so.getD k 0 :=
    fun k hk => getD_set_ne _ _ _ hk
  -- scheduled in the new state away from (j, op) means scheduled in the old
  have hsched_old : ∀ k i2, (k ≠ j ∨ i2 ≠ so.getD j 0) →
      i2 < (so.set j (so.getD j 0 + 1)).getD k 0 → i2 < so.getD k 0 := by
    intro k i2 hki hlt
    by_cases hk : k = j
    · subst hk
      have hi2 : i2 ≠ so.getD k 0 := hki.resolve_left (fun hc => hc rfl)
      rw [hso2self] at hlt
      omega
    · rw [hso2ne k hk] at hlt
      exact hlt
  refine ⟨?_, ?_, ?_, ?_, ?_, ?_, ?_, ?_, ?_, ?_⟩
  · rw [List.length_set, inv.so_len, length_updateStart]
  · rw [hes2len, length_updateStart]
  · intro row hrow
    rcases List.mem_or_eq_of_mem_set hrow with hmem | rfl
    · exact inv.rows_len row hmem
    · rw [List.length_set]
      exact hrowlen
  · intro k hk
    rw [length_updateStart] at hk
    by_cases hkj : k = j
    · subst hkj; rw [hso2self]; omega
    · rw [hso2ne k hkj]; exact inv.so_le k hk
  · intro k hk i2 hi2
    rw [length_updateStart] at hk
    by_cases hki : k = j ∧ i2 = so.getD j 0
    · obtain ⟨rfl, rfl⟩ := hki
      rw [hAtSelf]
      exact hdur0
    · rw [opAt_updateStart_ne start (not_and_or.mp hki)]
      exact inv.dur_nonneg k hk i2 hi2
  · intro k hk i2 hi2
    rw [length_updateStart] at hk
    by_cases hki : k = j ∧ i2 = so.getD j 0
    · obtain ⟨rfl, rfl⟩ := hki
      rw [hAtSelf, hso2self]
      constructor
      · intro _; omega
      · intro _
        show start ≠ -1
        omega
    · have hne : k ≠ j ∨ i2 ≠ so.getD j 0 := not_and_or.mp hki
      rw [opAt_updateStart_ne start hne]
      by_cases hkj : k = j
      · subst hkj
        have hi2ne : i2 ≠ so.getD k 0 := by
          rcases hne with hc | hc
          · exact absurd rfl hc
          · exact hc
        rw [hso2self]
        rw [inv.sched_iff k hk i2 hi2]
        omega
      · rw [hso2ne k hkj]
        exact inv.sched_iff k hk i2 hi2
  · intro k hk i2 hi2
    rw [length_updateStart] at hk
    by_cases hki : k = j ∧ i2 = so.getD j 0
    · obtain ⟨rfl, rfl⟩ := hki
      rw [hAtSelf]
      exact hstart0
    · have hne : k ≠ j ∨ i2 ≠ so.getD j 0 := not_and_or.mp hki
      rw [opAt_updateStart_ne start hne]
      exact inv.start_nonneg k hk i2 (hsched_old k i2 hne hi2)
  · intro k hk i2 hi2
    rw [length_updateStart] at hk
    by_cases hkj : k = j
    · subst hkj
      rw [hso2self] at hi2
      by_cases hlast : i2 + 1 = so.getD k 0
      · have hfirstne : (k ≠ k ∨ i2 ≠ so.getD k 0) := by omega
        rw [opAt_updateStart_ne start hfirstne,
          show i2 + 1 = so.getD k 0 from hlast, hAtSelf]
        have h0 : 0 < so.getD k 0 := by omega
        have hpe := hePrec h0
        have hieq : so.getD k 0 - 1 = i2 := by omega
        rw [hieq] at hpe
        exact le_trans hpe hstart_ge
      · have h1 : (k ≠ k ∨ i2 ≠ so.getD k 0) := by omega
        have h2 : (k ≠ k ∨ i2 + 1 ≠ so.getD k 0) := by omega
        rw [opAt_updateStart_ne start h1, opAt_updateStart_ne start h2]
        exact inv.prec k hk i2 (by omega)
    · rw [hso2ne k hkj] at hi2
      rw [opAt_updateStart_ne start (Or.inl hkj),
        opAt_updateStart_ne start (Or.inl hkj)]
      exact inv.prec k hk i2 hi2
  · intro k hk
    rw [length_updateStart] at hk
    refine ⟨hes2nonneg k hk, ?_⟩
    intro hklt hkpos
    by_cases hkj : k = j
    · subst hkj
      rw [hso2self] at hklt hkpos ⊢
      have heq : so.getD k 0 + 1 - 1 = so.getD k 0 := by omega
      rw [heq, hAtSelf]
      exact hes2j hklt
    · rw [hso2ne k hkj] at hklt hkpos ⊢
      rw [opAt_updateStart_ne start (Or.inl hkj), hes2ne k hk hkj]
      exact (inv.es_ok k hk).2 hklt hkpos
  · intro j1 hj1 i1 hi1 j2 hj2 i2 hi2 hne hmach hov
    rw [length_updateStart] at hj1 hj2
    by_cases hc1 : j1 = j ∧ i1 = so.getD j 0
    · obtain ⟨rfl, rfl⟩ := hc1
      by_cases hc2 : j2 = j1 ∧ i2 = so.getD j1 0
      · obtain ⟨he1, he2⟩ := hc2
        rcases hne with h | h
        · exact h he1.symm
        · exact h (by rw [he2])
      · have hne2 : j2 ≠ j1 ∨ i2 ≠ so.getD j1 0 := not_and_or.mp hc2
        have hsched2 : i2 < so.getD j2 0 := hsched_old j2 i2 hne2 hi2
        have hn2 : i2 < n := lt_of_lt_of_le hsched2 (inv.so_le j2 hj2)
        have hrow2 : i2 < (jobs.getD j2 []).length := by
          rw [inv.rows_len _ (getD_mem _ _ hj2)]; exact hn2
        have hmem2 : opAt jobs j2 i2 ∈ jobs.flatten := opAt_mem_flatten hj2 hrow2
        have hs2 : (opAt jobs j2 i2).start_time ≠ -1 :=
          (inv.sched_iff j2 hj2 i2 hn2).mpr hsched2
        rw [hAtSelf] at hmach hov
        rw [opAt_updateStart_ne start hne2] at hmach hov
        exact hnoc _ hmem2 hs2 hmach.symm hov
    · by_cases hc2 : j2 = j ∧ i2 = so.getD j 0
      · obtain ⟨rfl, rfl⟩ := hc2
        have hne1 : j1 ≠ j2 ∨ i1 ≠ so.getD j2 0 := not_and_or.mp hc1
        have hsched1 : i1 < so.getD j1 0 := hsched_old j1 i1 hne1 hi1
        have hn1 : i1 < n := lt_of_lt_of_le hsched1 (inv.so_le j1 hj1)
        have hrow1 : i1 < (jobs.getD j1 []).length := by
          rw [inv.rows_len _ (getD_mem _ _ hj1)]; exact hn1
        have hmem1 : opAt jobs j1 i1 ∈ jobs.flatten := opAt_mem_flatten hj1 hrow1
        have hs1 : (opAt jobs j1 i1).start_time ≠ -1 :=
          (inv.sched_iff j1 hj1 i1 hn1).mpr hsched1
        rw [hAtSelf] at hmach hov
        rw [opAt_updateStart_ne start hne1] at hmach hov
        exact hnoc _ hmem1 hs1 hmach (opsOverlap_symm hov)
      · have hne1 : j1 ≠ j ∨ i1 ≠ so.getD j 0 := not_and_or.mp hc1
        have hne2 : j2 ≠ j ∨ i2 ≠ so.getD j 0 := not_and_or.mp hc2
        rw [opAt_updateStart_ne start hne1] at hmach hov
        rw [opAt_updateStart_ne start hne2] at hmach hov
        exact inv.no_overlap j1 hj1 i1 (hsched_old j1 i1 hne1 hi1)
          j2 hj2 i2 (hsched_old j2 i2 hne2 hi2) hne hmach hov

/-! ### Sequential scheduler preservation -/

theorem init_Inv {p : JobShopProblem} (hp : ValidProblem p) :
    Inv p.num_operations p.jobs (List.replicate p.jobs.length 0)
      (List.replicate p.jobs.length 0) := by
  obtain ⟨hjobs, hn, hrows, hops⟩ := hp
  have hmem : ∀ j i, j < p.jobs.length → i < p.num_operations →
      opAt p.jobs j i ∈ p.jobs.getD j [] ∧ p.jobs.getD j [] ∈ p.jobs := by
    intro j i hj hi
    have hrow : p.jobs.getD j [] ∈ p.jobs := getD_mem _ _ hj
    have hlen : (p.jobs.getD j []).length = p.num_operations := hrows _ hrow
    exact ⟨getD_mem _ _ (by rw [hlen]; exact hi), hrow⟩
  refine ⟨?_, ?_, hrows, ?_, ?_, ?_, ?_, ?_, ?_, ?_⟩
  · rw [List.length_replicate]
  · rw [List.length_replicate]
  · intro j hj
    rw [getD_replicate _ _ hj]
    omega
  · intro j hj i hi
    obtain ⟨h1, h2⟩ := hmem j i hj hi
    exact (hops _ h2 _ h1).1
  · intro j hj i hi
    obtain ⟨h1, h2⟩ := hmem j i hj hi
    rw [getD_replicate _ _ hj]
    constructor
    · intro hne
      exact absurd (hops _ h2 _ h1).2.2.2 hne
    · intro hlt
      omega
  · intro j hj i hi
    rw [getD_replicate _ _ hj] at hi
    omega
  · intro j hj i hi
    rw [getD_replicate _ _ hj] at hi
    omega
  · intro j hj
    rw [getD_replicate _ _ hj]
    refine ⟨le_rfl, ?_⟩
    intro _ h0
    have hz : (List.replicate p.jobs.length (0 : Nat)).getD j 0 = 0 :=
      getD_replicate _ _ hj
    omega
  · intro j1 hj1 i1 hi1
    rw [getD_replicate _ _ hj1] at hi1
    omega

theorem seqStep_jobs_len (n : Nat) (st : SchedState) (j : Nat) :
    (seqStep n st j).jobs.length = st.jobs.length := by
  simp only [seqStep]
  cases hfind : find_available_time st.jobs.flatten
      (opAt st.jobs j (st.scheduled_ops.getD j 0)).machine
      (opAt st.jobs j (st.scheduled_ops.getD j 0)).duration
      (st.earliest_starts.getD j 0) with
  | none => rfl
  | some start => exact length_updateStart ..

theorem seqStep_inv {n : Nat} {st : SchedState}
    (inv : Inv n st.jobs st.scheduled_ops st.earliest_starts)
    {j : Nat} (hj : j < st.jobs.length)
    (hop : st.scheduled_ops.getD j 0 < n) :
    Inv n (seqStep n st j).jobs (seqStep n st j).scheduled_ops
      (seqStep n st j).earliest_starts := by
  have hjes : j < st.earliest_starts.length := by rw [inv.es_len]; exact hj
  obtain ⟨start, hfind⟩ := @find_some st.jobs.flatten
    (opAt st.jobs j (st.scheduled_ops.getD j 0)).machine
    (opAt st.jobs j (st.scheduled_ops.getD j 0)).duration
    (st.earliest_starts.getD j 0)
  have hes := inv.es_ok j hj
  have hstart0 : 0 ≤ start := le_trans hes.1 (find_ge hfind)
  have hdur0 : 0 ≤ (opAt st.jobs j (st.scheduled_ops.getD j 0)).duration :=
    inv.dur_nonneg j hj _ hop
  simp only [seqStep]
  rw [hfind]
  show Inv n (updateStart st.jobs j (st.scheduled_ops.getD j 0) start)
    (st.scheduled_ops.set j (st.scheduled_ops.getD j 0 + 1))
    (if st.scheduled_ops.getD j 0 + 1 < n
     then st.earliest_starts.set j
       (start + (opAt st.jobs j (st.scheduled_ops.getD j 0)).duration)
     else st.earliest_starts)
  by_cases hlt : st.scheduled_ops.getD j 0 + 1 < n
  · rw [if_pos hlt]
    refine commit_preserves inv hj hop hes.1 (fun h0 => hes.2 hop h0) hfind ?_ ?_ ?_ ?_
    · rw [List.length_set, inv.es_len]
    · intro k hk
      by_cases hkj : k = j
      · subst hkj
        rw [getD_set_self _ _ _ hjes]
        omega
      · rw [getD_set_ne _ _ _ hkj]
        exact (inv.es_ok k hk).1
    · intro _
      rw [getD_set_self _ _ _ hjes]
    · intro k _ hkj
      rw [getD_set_ne _ _ _ hkj]
  · rw [if_neg hlt]
    refine commit_preserves inv hj hop hes.1 (fun h0 => hes.2 hop h0) hfind
      inv.es_len (fun k hk => (inv.es_ok k hk).1) ?_ (fun k _ _ => rfl)
    intro hc
    exact absurd hc hlt

theorem seqLoop_inv {n : Nat} : ∀ (fuel : Nat) (st : SchedState),
    Inv n st.jobs st.scheduled_ops st.earliest_starts →
    Inv n (seqLoop n fuel st).jobs (seqLoop n fuel st).scheduled_ops
      (seqLoop n fuel st).earliest_starts := by
  intro fuel
  induction fuel with
  | zero => intro st h; exact h
  | succ fuel ih =>
    intro st h
    rw [seqLoop]
    cases hsel : selectJob n st.scheduled_ops st.earliest_starts with
    | none => exact h
    | some j =>
      obtain ⟨hj, hop, _, _⟩ := selectJob_some_spec hsel
      exact ih _ (seqStep_inv h (by rw [← h.so_len]; exact hj) hop)

theorem inv_sound {n : Nat} {jobs : List (List Operation)} {so : List Nat}
    {es : List Int} (inv : Inv n jobs so es) : ScheduleSound n jobs := by
  refine ⟨?_, ?_, ?_⟩
  · intro j hj i hi hs
    exact inv.start_nonneg j hj i ((inv.sched_iff j hj i hi).mp hs)
  · intro j hj i hi1 hs
    exact inv.prec j hj i ((inv.sched_iff j hj (i + 1) hi1).mp hs)
  · intro j1 hj1 i1 hi1 j2 hj2 i2 hi2 hs1 hs2 hne hm
    exact inv.no_overlap j1 hj1 i1 ((inv.sched_iff j1 hj1 i1 hi1).mp hs1)
      j2 hj2 i2 ((inv.sched_iff j2 hj2 i2 hi2).mp hs2) hne hm

theorem seq_sound {p : JobShopProblem} (hp : ValidProblem p) :
    ScheduleSound p.num_operations (schedule_jobs_sequential p).jobs :=
  inv_sound (seqLoop_inv _ _ (init_Inv hp))

/-! ### Sum lemmas for the parallel progress argument -/

theorem sum_le_mul_getD : ∀ (l : List Nat) (n : Nat),
    (∀ k, k < l.length → l.getD k 0 ≤ n) → l.sum ≤ l.length * n := by
  intro l
  induction l with
  | nil => intro n _; simp
  | cons a l ih =>
    intro n h
    have ha : a ≤ n := h 0 (by simp)
    have hl := ih n (fun k hk => h (k + 1) (by simpa using Nat.succ_lt_succ hk))
    rw [List.sum_cons, List.length_cons]
    calc a + l.sum ≤ n + l.length * n := by omega
    _ = (l.length + 1) * n := by ring

theorem sum_getD_all_eq : ∀ (l : List Nat) (n : Nat),
    (∀ k, k < l.length → l.getD k 0 ≤ n) → l.sum = l.length * n →
    ∀ k, k < l.length → l.getD k 0 = n := by
  intro l
  induction l with
  | nil => intro n _ _ k hk; exact absurd hk (by simp)
  | cons a l ih =>
    intro n h hsum k hk
    have ha : a ≤ n := h 0 (by simp)
    have hl : l.sum ≤ l.length * n :=
      sum_le_mul_getD l n (fun k2 hk2 => h (k2 + 1) (by simpa using Nat.succ_lt_succ hk2))
    rw [List.sum_cons, List.length_cons] at hsum
    have hmul : (l.length + 1) * n = l.length * n + n := by ring
    rw [hmul] at hsum
    have han : a = n := by omega
    have hsuml : l.sum = l.length * n := by omega
    cases k with
    | zero => exact han
    | succ k =>
      exact ih n (fun k2 hk2 => h (k2 + 1) (by simpa using Nat.succ_lt_succ hk2))
        hsuml k (by simpa using hk)

theorem exists_getD_lt_of_sum_lt : ∀ (l : List Nat) (n : Nat),
    l.sum < l.length * n → ∃ k, k < l.length ∧ l.getD k 0 < n := by
  intro l
  induction l with
  | nil => intro n h; simp at h
  | cons a l ih =>
    intro n h
    rw [List.sum_cons, List.length_cons] at h
    have hmul : (l.length + 1) * n = l.length * n + n := by ring
    rw [hmul] at h
    by_cases ha : a < n
    · exact ⟨0, by simp, ha⟩
    · have : l.sum < l.length * n := by omega
      obtain ⟨k, hk, hlt⟩ := ih n this
      exact ⟨k + 1, by simpa using Nat.succ_lt_succ hk, hlt⟩

theorem sum_le_sum_of_pointwise : ∀ (l l2 : List Nat), l.length = l2.length →
    (∀ k, k < l.length → l.getD k 0 ≤ l2.getD k 0) → l.sum ≤ l2.sum := by
  intro l
  induction l with
  | nil =>
    intro l2 hlen _
    have : l2 = [] := List.length_eq_zero.mp hlen.symm
    subst this
    exact le_rfl
  | cons a l ih =>
    intro l2 hlen h
    cases l2 with
    | nil => simp at hlen
    | cons b l2 =>
      have ha : a ≤ b := h 0 (by simp)
      have hl := ih l2 (by simpa using hlen)
        (fun k hk => h (k + 1) (by simpa using Nat.succ_lt_succ hk))
      rw [List.sum_cons, List.sum_cons]
      omega

theorem sum_lt_sum_of_pointwise : ∀ (l l2 : List Nat), l.length = l2.length →
    (∀ k, k < l.length → l.getD k 0 ≤ l2.getD k 0) →
    (∃ k, k < l.length ∧ l.getD k 0 < l2.getD k 0) → l.sum < l2.sum := by
  intro l
  induction l with
  | nil =>
    intro l2 _ _ hex
    obtain ⟨k, hk, _⟩ := hex
    exact absurd hk (by simp)
  | cons a l ih =>
    intro l2 hlen h hex
    cases l2 with
    | nil => simp at hlen
    | cons b l2 =>
      have ha : a ≤ b := h 0 (by simp)
      obtain ⟨k, hk, hklt⟩ := hex
      rw [List.sum_cons, List.sum_cons]
      cases k with
      | zero =>
        have hl := sum_le_sum_of_pointwise l l2 (by simpa using hlen)
          (fun k2 hk2 => h (k2 + 1) (by simpa using Nat.succ_lt_succ hk2))
        have : a < b := hklt
        omega
      | succ k =>
        have hl := ih l2 (by simpa using hlen)
          (fun k2 hk2 => h (k2 + 1) (by simpa using Nat.succ_lt_succ hk2))
          ⟨k, by simpa using hk, hklt⟩
        omega

theorem sum_set_succ : ∀ (l : List Nat) (j : Nat), j < l.length →
    (l.set j (l.getD j 0 + 1)).sum = l.sum + 1 := by
  intro l
  induction l with
  | nil => intro j hj; simp at hj
  | cons a l ih =>
    intro j hj
    cases j with
    | zero =>
      show ((a + 1) :: l).sum = (a :: l).sum + 1
      rw [List.sum_cons, List.sum_cons]
      omega
    | succ j =>
      show (a :: l.set j (l.getD j 0 + 1)).sum = (a :: l).sum + 1
      rw [List.sum_cons, List.sum_cons, ih j (by simpa using hj)]
      omega

theorem sum_replicate_zero (L : Nat) : (List.replicate L (0 : Nat)).sum = 0 := by
  simp

/-! ### Parallel commit lemmas -/

theorem ow_congr {st1 st2 : ParState} (h : st1.op_assigned = st2.op_assigned)
    (j : Nat) : ow st1 j = ow st2 j := by
  unfold ow
  rw [h]

theorem parCommit_char (st : ParState) (job : Nat) :
    ∃ start : Int,
      parCommit st job =
        { st with
          jobs := updateStart st.jobs job (st.scheduled_ops.getD job 0) start,
          scheduled_ops := st.scheduled_ops.set job (st.scheduled_ops.getD job 0 + 1),
          earliest_starts := st.earliest_starts.set job
            (start + (opAt st.jobs job (st.scheduled_ops.getD job 0)).duration),
          assigned_count := st.assigned_count + 1 } ∧
      find_available_time st.jobs.flatten
        (opAt st.jobs job (st.scheduled_ops.getD job 0)).machine
        (opAt st.jobs job (st.scheduled_ops.getD job 0)).duration
        (st.earliest_starts.getD job 0) = some start := by
  obtain ⟨start, hfind⟩ := @find_some st.jobs.flatten
    (opAt st.jobs job (st.scheduled_ops.getD job 0)).machine
    (opAt st.jobs job (st.scheduled_ops.getD job 0)).duration
    (st.earliest_starts.getD job 0)
  refine ⟨start, ?_, hfind⟩
  simp only [parCommit]
  rw [hfind]

theorem parCommit_frame (st : ParState) (job : Nat) :
    (parCommit st job).op_assigned = st.op_assigned ∧
    (parCommit st job).thread_worked = st.thread_worked ∧
    (parCommit st job).jobs.length = st.jobs.length ∧
    (parCommit st job).scheduled_ops.length = st.scheduled_ops.length ∧
    (parCommit st job).earliest_starts.length = st.earliest_starts.length ∧
    (parCommit st job).assigned_count = st.assigned_count + 1 := by
  obtain ⟨start, hpc, _⟩ := parCommit_char st job
  rw [hpc]
  refine ⟨rfl, rfl, length_updateStart .., List.length_set .., List.length_set .., rfl⟩

theorem parCommit_so_self {st : ParState} {job : Nat}
    (hjob : job < st.scheduled_ops.length) :
    (parCommit st job).scheduled_ops.getD job 0 = st.scheduled_ops.getD job 0 + 1 := by
  obtain ⟨start, hpc, _⟩ := parCommit_char st job
  rw [hpc]
  exact getD_set_self _ _ _ hjob

theorem parCommit_so_other {st : ParState} {job : Nat} (k : Nat) (hk : k ≠ job) :
    (parCommit st job).scheduled_ops.getD k 0 = st.scheduled_ops.getD k 0 := by
  obtain ⟨start, hpc, _⟩ := parCommit_char st job
  rw [hpc]
  exact getD_set_ne _ _ _ hk

theorem parCommit_pinv {n T L : Nat} {st : ParState} {job : Nat}
    (hP : PInv n T L st) (hjob : job < L)
    (hop : st.scheduled_ops.getD job 0 < n) :
    PInv n T L (parCommit st job) := by
  obtain ⟨start, hpc, hfind⟩ := parCommit_char st job
  have hjobs : job < st.jobs.length := by rw [hP.jobs_len]; exact hjob
  have hjso : job < st.scheduled_ops.length := by
    rw [hP.inv.so_len, hP.jobs_len]; exact hjob
  have hjes : job < st.earliest_starts.length := by
    rw [hP.inv.es_len, hP.jobs_len]; exact hjob
  have hes := hP.inv.es_ok job hjobs
  rw [hpc]
  refine ⟨?_, ?_, ?_, ?_, ?_, ?_⟩
  · rw [length_updateStart, hP.jobs_len]
  · refine commit_preserves hP.inv hjobs hop hes.1 (fun h0 => hes.2 hop h0) hfind
      ?_ ?_ ?_ ?_
    · rw [List.length_set, hP.inv.es_len]
    · intro k hk
      by_cases hkj : k = job
      · subst hkj
        rw [getD_set_self _ _ _ hjes]
        have hstart0 : 0 ≤ start := le_trans hes.1 (find_ge hfind)
        have hdur0 := hP.inv.dur_nonneg k hjobs _ hop
        omega
      · rw [getD_set_ne _ _ _ hkj]
        exact (hP.inv.es_ok k hk).1
    · intro _
      rw [getD_set_self _ _ _ hjes]
    · intro k _ hkj
      rw [getD_set_ne _ _ _ hkj]
  · rw [hP.oa_len]
  · intro j2 hj2
    have := hP.ow_lt j2 hj2
    unfold ow at this ⊢
    exact this
  · rw [hP.tw_len]
  · show st.assigned_count + 1 = (st.scheduled_ops.set job (st.scheduled_ops.getD job 0 + 1)).sum
    rw [sum_set_succ _ _ hjso, hP.count_eq]

theorem parAdvanceJob_eq_commit {n tid : Nat} {st : ParState} {job : Nat}
    (h1 : ow st job = tid) (h2 : st.scheduled_ops.getD job 0 < n) :
    parAdvanceJob n tid st job = parCommit st job := by
  unfold parAdvanceJob
  rw [if_pos h1, if_pos h2]

theorem parAdvanceJob_eq_id {n tid : Nat} {st : ParState} {job : Nat}
    (h : ¬ (ow st job = tid ∧ st.scheduled_ops.getD job 0 < n)) :
    parAdvanceJob n tid st job = st := by
  unfold parAdvanceJob
  by_cases h1 : ow st job = tid
  · rw [if_pos h1, if_neg (fun h2 => h ⟨h1, h2⟩)]
  · rw [if_neg h1]

theorem parAdvanceJob_frame (n tid : Nat) (st : ParState) (job : Nat) :
    (parAdvanceJob n tid st job).op_assigned = st.op_assigned ∧
    (parAdvanceJob n tid st job).thread_worked = st.thread_worked ∧
    (parAdvanceJob n tid st job).jobs.length = st.jobs.length ∧
    (parAdvanceJob n tid st job).scheduled_ops.length = st.scheduled_ops.length ∧
    st.assigned_count ≤ (parAdvanceJob n tid st job).assigned_count := by
  by_cases h : ow st job = tid ∧ st.scheduled_ops.getD job 0 < n
  · rw [parAdvanceJob_eq_commit h.1 h.2]
    obtain ⟨h1, h2, h3, h4, _, h6⟩ := parCommit_frame st job
    exact ⟨h1, h2, h3, h4, by omega⟩
  · rw [parAdvanceJob_eq_id h]
    exact ⟨rfl, rfl, rfl, rfl, le_rfl⟩

theorem parAdvanceJob_pinv {n T L tid : Nat} {st : ParState} {job : Nat}
    (hP : PInv n T L st) (hjob : job < L) :
    PInv n T L (parAdvanceJob n tid st job) := by
  by_cases h : ow st job = tid ∧ st.scheduled_ops.getD job 0 < n
  · rw [parAdvanceJob_eq_commit h.1 h.2]
    exact parCommit_pinv hP hjob h.2
  · rw [parAdvanceJob_eq_id h]
    exact hP

theorem parAdvanceJob_so (n tid : Nat) {st : ParState} {job : Nat}
    (hjob : job < st.scheduled_ops.length) (k : Nat) :
    (parAdvanceJob n tid st job).scheduled_ops.getD k 0 =
      (if k = job ∧ ow st job = tid ∧ st.scheduled_ops.getD job 0 < n
       then st.scheduled_ops.getD job 0 + 1
       else st.scheduled_ops.getD k 0) := by
  by_cases h : ow st job = tid ∧ st.scheduled_ops.getD job 0 < n
  · rw [parAdvanceJob_eq_commit h.1 h.2]
    by_cases hk : k = job
    · subst hk
      rw [if_pos ⟨rfl, h⟩]
      exact parCommit_so_self hjob
    · rw [if_neg (fun hc => hk hc.1)]
      exact parCommit_so_other k hk
  · rw [parAdvanceJob_eq_id h]
    rw [if_neg (fun hc => h hc.2)]

/-! ### One thread body, one round -/

theorem foldPaj_frame (n tid : Nat) : ∀ (l : List Nat) (st : ParState),
    (l.foldl (parAdvanceJob n tid) st).op_assigned = st.op_assigned ∧
    (l.foldl (parAdvanceJob n tid) st).thread_worked = st.thread_worked ∧
    (l.foldl (parAdvanceJob n tid) st).jobs.length = st.jobs.length ∧
    (l.foldl (parAdvanceJob n tid) st).scheduled_ops.length =
      st.scheduled_ops.length ∧
    st.assigned_count ≤ (l.foldl (parAdvanceJob n tid) st).assigned_count := by
  intro l
  induction l with
  | nil => intro st; exact ⟨rfl, rfl, rfl, rfl, le_rfl⟩
  | cons k l ih =>
    intro st
    rw [List.foldl_cons]
    obtain ⟨a1, a2, a3, a4, a5⟩ := parAdvanceJob_frame n tid st k
    obtain ⟨b1, b2, b3, b4, b5⟩ := ih (parAdvanceJob n tid st k)
    exact ⟨b1.trans a1, b2.trans a2, b3.trans a3, b4.trans a4, le_trans a5 b5⟩

theorem foldPaj_pinv {n T L tid : Nat} : ∀ (l : List Nat) (st : ParState),
    (∀ k ∈ l, k < L) → PInv n T L st →
    PInv n T L (l.foldl (parAdvanceJob n tid) st) := by
  intro l
  induction l with
  | nil => intro st _ hP; exact hP
  | cons k l ih =>
    intro st hl hP
    rw [List.foldl_cons]
    exact ih _ (fun k2 hk2 => hl k2 (List.mem_cons_of_mem k hk2))
      (parAdvanceJob_pinv hP (hl k (List.mem_cons_self k l)))

theorem foldPaj_so (n tid : Nat) : ∀ (l : List Nat), l.Nodup →
    ∀ (st : ParState), (∀ k ∈ l, k < st.scheduled_ops.length) →
    ∀ j2, (l.foldl (parAdvanceJob n tid) st).scheduled_ops.getD j2 0 =
      (if j2 ∈ l ∧ ow st j2 = tid ∧ st.scheduled_ops.getD j2 0 < n
       then st.scheduled_ops.getD j2 0 + 1
       else st.scheduled_ops.getD j2 0) := by
  intro l
  induction l with
  | nil =>
    intro _ st _ j2
    rw [if_neg (fun hc => List.not_mem_nil j2 hc.1)]
    rfl
  | cons k l ih =>
    intro hnd st hl j2
    obtain ⟨hknl, hndl⟩ := List.nodup_cons.mp hnd
    rw [List.foldl_cons]
    have hframe := parAdvanceJob_frame n tid st k
    have how1 := ow_congr hframe.1
    have hkso : k < st.scheduled_ops.length := hl k (List.mem_cons_self k l)
    have hrec := ih hndl (parAdvanceJob n tid st k)
      (fun k2 hk2 => by
        rw [hframe.2.2.2.1]
        exact hl k2 (List.mem_cons_of_mem k hk2)) j2
    rw [hrec]
    have hpaso := parAdvanceJob_so n tid hkso j2
    by_cases hj2k : j2 = k
    · subst hj2k
      have hj2nl : (j2 ∈ l) = False := by simp [hknl]
      by_cases hcase : ow st j2 = tid ∧ st.scheduled_ops.getD j2 0 < n
      · have hval : (parAdvanceJob n tid st j2).scheduled_ops.getD j2 0 =
          st.scheduled_ops.getD j2 0 + 1 := by
          rw [hpaso, if_pos ⟨rfl, hcase⟩]
        rw [if_neg (by rw [hj2nl]; exact fun hc => hc.1), hval,
          if_pos ⟨List.mem_cons_self j2 l, hcase⟩]
      · have hval : (parAdvanceJob n tid st j2).scheduled_ops.getD j2 0 =
          st.scheduled_ops.getD j2 0 := by
          rw [hpaso, if_neg (fun hc => hcase hc.2)]
        rw [if_neg (by rw [hj2nl]; exact fun hc => hc.1), hval,
          if_neg (fun hc => hcase hc.2)]
    · have hval : (parAdvanceJob n tid st k).scheduled_ops.getD j2 0 =
        st.scheduled_ops.getD j2 0 := by
        rw [hpaso, if_neg (fun hc => hj2k hc.1)]
      have hmem : (j2 ∈ k :: l) ↔ (j2 ∈ l) := by simp [List.mem_cons, hj2k]
      rw [hval, how1 j2]
      exact if_congr (by rw [hmem]) rfl rfl

theorem runThread_frame (n t : Nat) (st : ParState) :
    (runThread n t st).op_assigned = st.op_assigned ∧
    (runThread n t st).jobs.length = st.jobs.length ∧
    (runThread n t st).scheduled_ops.length = st.scheduled_ops.length ∧
    st.assigned_count ≤ (runThread n t st).assigned_count := by
  simp only [runThread]
  obtain ⟨a1, a2, a3, a4, a5⟩ := foldPaj_frame n t (List.range st.jobs.length) st
  by_cases h : st.assigned_count <
      ((List.range st.jobs.length).foldl (parAdvanceJob n t) st).assigned_count
  · rw [if_pos h]
    exact ⟨a1, a3, a4, a5⟩
  · rw [if_neg h]
    exact ⟨a1, a3, a4, a5⟩

theorem runThread_pinv {n T L t : Nat} {st : ParState} (hP : PInv n T L st) :
    PInv n T L (runThread n t st) := by
  simp only [runThread]
  have h1 : PInv n T L ((List.range st.jobs.length).foldl (parAdvanceJob n t) st) :=
    foldPaj_pinv (List.range st.jobs.length) st
      (fun k hk => by rw [← hP.jobs_len]; exact List.mem_range.mp hk) hP
  by_cases h : st.assigned_count <
      ((List.range st.jobs.length).foldl (parAdvanceJob n t) st).assigned_count
  · rw [if_pos h]
    exact ⟨h1.jobs_len, h1.inv, h1.oa_len, h1.ow_lt,
      by rw [List.length_set]; exact h1.tw_len, h1.count_eq⟩
  · rw [if_neg h]
    exact h1

theorem runThread_so {n T L t : Nat} {st : ParState} (hP : PInv n T L st)
    (j2 : Nat) :
    (runThread n t st).scheduled_ops.getD j2 0 =
      (if j2 < L ∧ ow st j2 = t ∧ st.scheduled_ops.getD j2 0 < n
       then st.scheduled_ops.getD j2 0 + 1
       else st.scheduled_ops.getD j2 0) := by
  have hso := foldPaj_so n t (List.range st.jobs.length) (List.nodup_range _) st
    (fun k hk => by
      rw [hP.inv.so_len]
      exact List.mem_range.mp hk) j2
  have hgoal : ((List.range st.jobs.length).foldl (parAdvanceJob n t) st).scheduled_ops.getD j2 0 =
      (if j2 < L ∧ ow st j2 = t ∧ st.scheduled_ops.getD j2 0 < n
       then st.scheduled_ops.getD j2 0 + 1
       else st.scheduled_ops.getD j2 0) := by
    rw [hso]
    refine if_congr ?_ rfl rfl
    rw [List.mem_range, hP.jobs_len]
  simp only [runThread]
  by_cases h : st.assigned_count <
      ((List.range st.jobs.length).foldl (parAdvanceJob n t) st).assigned_count
  · rw [if_pos h]
    exact hgoal
  · rw [if_neg h]
    exact hgoal

theorem runThread_ow (n t : Nat) (st : ParState) (j2 : Nat) :
    ow (runThread n t st) j2 = ow st j2 :=
  ow_congr (runThread_frame n t st).1 j2

theorem roundFn_pinv {n T L : Nat} : ∀ (order : List Nat) (st : ParState),
    PInv n T L st → PInv n T L (roundFn n order st) := by
  intro order
  induction order with
  | nil => intro st hP; exact hP
  | cons t rest ih =>
    intro st hP
    show PInv n T L (roundFn n rest (runThread n t st))
    exact ih _ (runThread_pinv hP)

theorem roundFn_so {n T L : Nat} : ∀ (order : List Nat), order.Nodup →
    ∀ (st : ParState), PInv n T L st → ∀ j2,
    (roundFn n order st).scheduled_ops.getD j2 0 =
      (if ow st j2 ∈ order ∧ st.scheduled_ops.getD j2 0 < n ∧ j2 < L
       then st.scheduled_ops.getD j2 0 + 1
       else st.scheduled_ops.getD j2 0) := by
  intro order
  induction order with
  | nil =>
    intro _ st _ j2
    rw [if_neg (fun hc => List.not_mem_nil _ hc.1)]
    rfl
  | cons t rest ih =>
    intro hnd st hP j2
    obtain ⟨htnr, hndr⟩ := List.nodup_cons.mp hnd
    have hrec := ih hndr (runThread n t st) (runThread_pinv hP) j2
    have hrtso := runThread_so (t := t) hP j2
    have hrow := runThread_ow n t st j2
    show (roundFn n rest (runThread n t st)).scheduled_ops.getD j2 0 = _
    rw [hrec, hrow]
    by_cases howt : ow st j2 = t
    · have hnotin : (ow st j2 ∈ rest) = False := by
        rw [howt]
        simp [htnr]
      by_cases hrem : j2 < L ∧ st.scheduled_ops.getD j2 0 < n
      · have hval : (runThread n t st).scheduled_ops.getD j2 0 =
          st.scheduled_ops.getD j2 0 + 1 := by
          rw [hrtso, if_pos ⟨hrem.1, howt, hrem.2⟩]
        rw [if_neg (by rw [hnotin]; exact fun hc => hc.1), hval,
          if_pos ⟨by rw [howt]; exact List.mem_cons_self t rest, hrem.2, hrem.1⟩]
      · have hval : (runThread n t st).scheduled_ops.getD j2 0 =
          st.scheduled_ops.getD j2 0 := by
          rw [hrtso, if_neg (fun hc => hrem ⟨hc.1, hc.2.2⟩)]
        rw [if_neg (by rw [hnotin]; exact fun hc => hc.1), hval,
          if_neg (fun hc => hrem ⟨hc.2.2, hc.2.1⟩)]
    · have hval : (runThread n t st).scheduled_ops.getD j2 0 =
        st.scheduled_ops.getD j2 0 := by
        rw [hrtso, if_neg (fun hc => howt hc.2.1)]
      have hmem : (ow st j2 ∈ t :: rest) ↔ (ow st j2 ∈ rest) := by
        simp [List.mem_cons, howt]
      rw [hval]
      exact if_congr (by rw [hmem]) rfl rfl

theorem roundFn_frame (n : Nat) : ∀ (order : List Nat) (st : ParState),
    (roundFn n order st).op_assigned = st.op_assigned ∧
    (roundFn n order st).jobs.length = st.jobs.length ∧
    (roundFn n order st).scheduled_ops.length = st.scheduled_ops.length ∧
    st.assigned_count ≤ (roundFn n order st).assigned_count := by
  intro order
  induction order with
  | nil => intro st; exact ⟨rfl, rfl, rfl, le_rfl⟩
  | cons t rest ih =>
    intro st
    obtain ⟨a1, a2, a3, a4⟩ := runThread_frame n t st
    obtain ⟨b1, b2, b3, b4⟩ := ih (runThread n t st)
    exact ⟨b1.trans a1, b2.trans a2, b3.trans a3, le_trans a4 b4⟩

/-! ### Progress and completion of the parallel loop -/

theorem pinv_assigned_le {n T L : Nat} {st : ParState} (hP : PInv n T L st) :
    st.assigned_count ≤ L * n := by
  rw [hP.count_eq]
  have h := sum_le_mul_getD st.scheduled_ops n
    (fun k hk => hP.inv.so_le k (by rw [← hP.inv.so_len]; exact hk))
  rw [hP.inv.so_len, hP.jobs_len] at h
  exact h

theorem pinv_exists_remaining {n T L : Nat} {st : ParState} (hP : PInv n T L st)
    (hlt : st.assigned_count < L * n) :
    ∃ j, j < L ∧ st.scheduled_ops.getD j 0 < n := by
  have hsum : st.scheduled_ops.sum < st.scheduled_ops.length * n := by
    rw [hP.inv.so_len, hP.jobs_len, ← hP.count_eq]
    exact hlt
  obtain ⟨k, hk, hklt⟩ := exists_getD_lt_of_sum_lt st.scheduled_ops n hsum
  rw [hP.inv.so_len, hP.jobs_len] at hk
  exact ⟨k, hk, hklt⟩

theorem roundFn_progress {n T L : Nat} {st : ParState} (hP : PInv n T L st)
    {order : List Nat} (hperm : order.Perm (List.range T))
    (hrem : ∃ j, j < L ∧ st.scheduled_ops.getD j 0 < n) :
    st.assigned_count < (roundFn n order st).assigned_count := by
  obtain ⟨j, hjL, hjn⟩ := hrem
  have hnd : order.Nodup := hperm.nodup_iff.mpr (List.nodup_range T)
  have hP2 := roundFn_pinv order st hP
  have hso := roundFn_so order hnd st hP
  rw [hP.count_eq, hP2.count_eq]
  have hlen : st.scheduled_ops.length =
      (roundFn n order st).scheduled_ops.length :=
    (roundFn_frame n order st).2.2.1.symm
  apply sum_lt_sum_of_pointwise _ _ hlen
  · intro k hk
    rw [hso k]
    split <;> omega
  · refine ⟨j, ?_, ?_⟩
    · rw [hP.inv.so_len, hP.jobs_len]; exact hjL
    · rw [hso j, if_pos ?_]
      · omega
      · refine ⟨?_, hjn, hjL⟩
        rw [hperm.mem_iff, List.mem_range]
        exact hP.ow_lt j hjL

theorem parLoopGo_completes {n T L : Nat} {orders : Nat → List Nat}
    (horders : ∀ i, (orders i).Perm (List.range T)) :
    ∀ (fuel iter : Nat) (st : ParState), PInv n T L st →
      L * n - st.assigned_count ≤ fuel →
      PInv n T L (parLoopGo n T (L * n) orders fuel iter st) ∧
      (parLoopGo n T (L * n) orders fuel iter st).assigned_count = L * n := by
  intro fuel
  induction fuel with
  | zero =>
    intro iter st hP hfuel
    have hle := pinv_assigned_le hP
    simp only [parLoopGo]
    exact ⟨hP, by omega⟩
  | succ fuel ih =>
    intro iter st hP hfuel
    simp only [parLoopGo]
    by_cases hlt : st.assigned_count < L * n
    · rw [if_pos hlt]
      have hrem := pinv_exists_remaining hP hlt
      have hprog := roundFn_progress hP (horders iter) hrem
      have hP1 := roundFn_pinv (orders iter) st hP
      have hne : ¬ ((roundFn n (orders iter) st).assigned_count =
          st.assigned_count) := by omega
      rw [if_neg hne]
      exact ih (iter + 1) _ hP1 (by omega)
    · rw [if_neg hlt]
      have hle := pinv_assigned_le hP
      exact ⟨hP, by omega⟩

theorem init_pinv {p : JobShopProblem} (hp : ValidProblem p) {T : Nat}
    (hT : 1 ≤ T) :
    PInv p.num_operations T p.jobs.length (initParState p T) := by
  refine ⟨rfl, init_Inv hp, ?_, ?_, ?_, ?_⟩
  · show ((List.range p.jobs.length).map
      (fun j => List.replicate p.num_operations (j % T))).length = p.jobs.length
    rw [List.length_map, List.length_range]
  · intro j hj
    show ((((List.range p.jobs.length).map
      (fun j => List.replicate p.num_operations (j % T))).getD j []).getD 0 0) < T
    have hmap : ((List.range p.jobs.length).map
        (fun j => List.replicate p.num_operations (j % T))).getD j [] =
        List.replicate p.num_operations (j % T) := by
      rw [getD_eq_getElem _ _ (by rw [List.length_map, List.length_range]; exact hj)]
      rw [List.getElem_map]
      rw [List.getElem_range]
    rw [hmap, getD_replicate _ _ hp.2.1]
    exact Nat.mod_lt j (by omega)
  · show (List.replicate T false).length = T
    rw [List.length_replicate]
  · show 0 = (List.replicate p.jobs.length (0 : Nat)).sum
    rw [sum_replicate_zero]

theorem par_completes {p : JobShopProblem} {T : Nat} {orders : Nat → List Nat}
    (hp : ValidProblem p) (hT : 1 ≤ T)
    (horders : ∀ i, (orders i).Perm (List.range T)) :
    (schedule_with_strict_division p T orders).2 = true ∧
    PInv p.num_operations T p.jobs.length
      (schedule_with_strict_division p T orders).1 ∧
    (∀ j, j < p.jobs.length →
      (schedule_with_strict_division p T orders).1.scheduled_ops.getD j 0 =
        p.num_operations) ∧
    (∀ j, j < p.jobs.length → ∀ i, i < p.num_operations →
      (opAt (schedule_with_strict_division p T orders).1.jobs j i).start_time ≠ -1) := by
  have hfuel : p.jobs.length * p.num_operations - 0 ≤
      p.jobs.length * p.num_operations * 10 := by
    generalize p.jobs.length * p.num_operations = k
    omega
  have h := parLoopGo_completes horders
    (p.jobs.length * p.num_operations * 10) 0 (initParState p T)
    (init_pinv hp hT) hfuel
  have hfinal : PInv p.num_operations T p.jobs.length
      (schedule_with_strict_division p T orders).1 := h.1
  have hassigned : (schedule_with_strict_division p T orders).1.assigned_count =
      p.jobs.length * p.num_operations := h.2
  have hallso : ∀ j, j < p.jobs.length →
      (schedule_with_strict_division p T orders).1.scheduled_ops.getD j 0 =
        p.num_operations := by
    intro j hj
    apply sum_getD_all_eq _ p.num_operations
    · intro k hk
      refine hfinal.inv.so_le k ?_
      rw [← hfinal.inv.so_len]
      exact hk
    · rw [hfinal.inv.so_len, hfinal.jobs_len, ← hfinal.count_eq]
      exact hassigned
    · rw [hfinal.inv.so_len, hfinal.jobs_len]
      exact hj
  refine ⟨?_, hfinal, hallso, ?_⟩
  · show decide ((schedule_with_strict_division p T orders).1.assigned_count =
      p.jobs.length * p.num_operations) = true
    rw [hassigned]
    simp
  · intro j hj i hi
    have hjlen : j < (schedule_with_strict_division p T orders).1.jobs.length := by
      rw [hfinal.jobs_len]
      exact hj
    rw [hfinal.inv.sched_iff j hjlen i hi, hallso j hj]
    exact hi

/-! ### Deadlock fallback -/

theorem completeJob_char {n T L : Nat} : ∀ (fuel : Nat) (st : ParState) (job : Nat),
    job < L → PInv n T L st → n ≤ fuel + st.scheduled_ops.getD job 0 →
    PInv n T L (completeJob n fuel st job) ∧
    (completeJob n fuel st job).scheduled_ops.getD job 0 = n ∧
    (∀ k, k ≠ job → (completeJob n fuel st job).scheduled_ops.getD k 0 =
      st.scheduled_ops.getD k 0) := by
  intro fuel
  induction fuel with
  | zero =>
    intro st job hjob hP hfuel
    have hle : st.scheduled_ops.getD job 0 ≤ n :=
      hP.inv.so_le job (by rw [hP.jobs_len]; exact hjob)
    have heq : st.scheduled_ops.getD job 0 = n := by omega
    rw [completeJob]
    exact ⟨hP, heq, fun k _ => rfl⟩
  | succ fuel ih =>
    intro st job hjob hP hfuel
    rw [completeJob]
    by_cases hlt : st.scheduled_ops.getD job 0 < n
    · rw [if_pos hlt]
      have hpc := parCommit_pinv hP hjob hlt
      have hso : (parCommit st job).scheduled_ops.getD job 0 =
          st.scheduled_ops.getD job 0 + 1 :=
        parCommit_so_self (by rw [hP.inv.so_len, hP.jobs_len]; exact hjob)
      obtain ⟨h1, h2, h3⟩ := ih (parCommit st job) job hjob hpc (by omega)
      refine ⟨h1, h2, ?_⟩
      intro k hk
      rw [h3 k hk]
      exact parCommit_so_other k hk
    · rw [if_neg hlt]
      have hle : st.scheduled_ops.getD job 0 ≤ n :=
        hP.inv.so_le job (by rw [hP.jobs_len]; exact hjob)
      exact ⟨hP, by omega, fun k _ => rfl⟩

theorem fallback_fold_char {n T L : Nat} : ∀ (l : List Nat) (st : ParState),
    (∀ k ∈ l, k < L) → PInv n T L st →
    PInv n T L (l.foldl (fun s job => completeJob n n s job) st) ∧
    (∀ j, j ∈ l → (l.foldl (fun s job => completeJob n n s job) st).scheduled_ops.getD j 0 = n) ∧
    (∀ j, j ∉ l → (l.foldl (fun s job => completeJob n n s job) st).scheduled_ops.getD j 0 =
      st.scheduled_ops.getD j 0) := by
  intro l
  induction l with
  | nil =>
    intro st _ hP
    exact ⟨hP, fun j hj => absurd hj (List.not_mem_nil j), fun j _ => rfl⟩
  | cons k l ih =>
    intro st hl hP
    rw [List.foldl_cons]
    have hkL : k < L := hl k (List.mem_cons_self k l)
    obtain ⟨hP1, hk1, hother1⟩ := completeJob_char n st k hkL hP (by omega)
    obtain ⟨hP2, hmem2, hnot2⟩ := ih (completeJob n n st k)
      (fun k2 hk2 => hl k2 (List.mem_cons_of_mem k hk2)) hP1
    refine ⟨hP2, ?_, ?_⟩
    · intro j hj
      rcases List.mem_cons.mp hj with rfl | hjl
      · by_cases hjin : j ∈ l
        · exact hmem2 j hjin
        · rw [hnot2 j hjin]
          exact hk1
      · exact hmem2 j hjl
    · intro j hj
      have hjk : j ≠ k := fun hc => hj (hc ▸ List.mem_cons_self k l)
      have hjl : j ∉ l := fun hc => hj (List.mem_cons_of_mem k hc)
      rw [hnot2 j hjl]
      exact hother1 j hjk

theorem fallbackComplete_all {n T L : Nat} {st : ParState} (hP : PInv n T L st) :
    PInv n T L (fallbackComplete n st) ∧
    (∀ j, j < L → (fallbackComplete n st).scheduled_ops.getD j 0 = n) := by
  have h := fallback_fold_char (List.range st.jobs.length) st
    (fun k hk => by rw [← hP.jobs_len]; exact List.mem_range.mp hk) hP
  refine ⟨h.1, ?_⟩
  intro j hj
  exact h.2.1 j (List.mem_range.mpr (by rw [hP.jobs_len]; exact hj))

/-! ### Stall handler characterisation -/

theorem reassignStep_char_idle {n T : Nat} {acc : ParState × Bool} {t0 : Nat}
    (hfi : firstIdle T acc.1.thread_worked = some t0) (job : Nat)
    (hjob : job < acc.1.op_assigned.length) :
    (reassignStep n T acc job).1.scheduled_ops = acc.1.scheduled_ops ∧
    (reassignStep n T acc job).1.thread_worked = acc.1.thread_worked ∧
    (reassignStep n T acc job).1.op_assigned.length = acc.1.op_assigned.length ∧
    (∀ j, (reassignStep n T acc job).1.op_assigned.getD j [] =
      (if j = job ∧ acc.1.scheduled_ops.getD job 0 < n then List.replicate n t0
       else acc.1.op_assigned.getD j [])) := by
  unfold reassignStep
  by_cases hstuck : acc.1.scheduled_ops.getD job 0 < n
  · rw [if_pos hstuck, hfi]
    refine ⟨rfl, rfl, List.length_set .., ?_⟩
    intro j
    by_cases hj : j = job
    · subst hj
      rw [if_pos ⟨rfl, hstuck⟩]
      exact getD_set_self _ _ _ hjob
    · rw [if_neg (fun hc => hj hc.1)]
      exact getD_set_ne _ _ _ hj
  · rw [if_neg hstuck]
    refine ⟨rfl, rfl, rfl, ?_⟩
    intro j
    rw [if_neg (fun hc => hstuck hc.2)]

theorem reassign_fold_char {n T : Nat} {t0 : Nat} :
    ∀ (l : List Nat) (acc : ParState × Bool), l.Nodup →
      firstIdle T acc.1.thread_worked = some t0 →
      (∀ k ∈ l, k < acc.1.op_assigned.length) →
      (l.foldl (reassignStep n T) acc).1.scheduled_ops = acc.1.scheduled_ops ∧
      (l.foldl (reassignStep n T) acc).1.thread_worked = acc.1.thread_worked ∧
      (∀ j, (l.foldl (reassignStep n T) acc).1.op_assigned.getD j [] =
        (if j ∈ l ∧ acc.1.scheduled_ops.getD j 0 < n then List.replicate n t0
         else acc.1.op_assigned.getD j [])) := by
  intro l
  induction l with
  | nil =>
    intro acc _ _ _
    refine ⟨rfl, rfl, ?_⟩
    intro j
    rw [if_neg (fun hc => List.not_mem_nil j hc.1)]
    rfl
  | cons k l ih =>
    intro acc hnd hfi hl
    obtain ⟨hknl, hndl⟩ := List.nodup_cons.mp hnd
    rw [List.foldl_cons]
    have hkb : k < acc.1.op_assigned.length := hl k (List.mem_cons_self k l)
    obtain ⟨hso1, htw1, hlen1, hrow1⟩ := reassignStep_char_idle hfi k hkb
    obtain ⟨hso2, htw2, hrow2⟩ := ih (reassignStep n T acc k) hndl
      (by rw [htw1]; exact hfi)
      (fun k2 hk2 => by rw [hlen1]; exact hl k2 (List.mem_cons_of_mem k hk2))
    refine ⟨hso2.trans hso1, htw2.trans htw1, ?_⟩
    intro j
    rw [hrow2 j, hso1]
    by_cases hjk : j = k
    · subst hjk
      have hjnl : (j ∈ l) = False := by simp [hknl]
      by_cases hstuck : acc.1.scheduled_ops.getD j 0 < n
      · have hin : (reassignStep n T acc j).1.op_assigned.getD j [] =
          List.replicate n t0 := by
          rw [hrow1 j, if_pos ⟨rfl, hstuck⟩]
        rw [if_neg (by rw [hjnl]; exact fun hc => hc.1), hin,
          if_pos ⟨List.mem_cons_self j l, hstuck⟩]
      · have hin : (reassignStep n T acc j).1.op_assigned.getD j [] =
          acc.1.op_assigned.getD j [] := by
          rw [hrow1 j, if_neg (fun hc => hstuck hc.2)]
        rw [if_neg (by rw [hjnl]; exact fun hc => hc.1), hin,
          if_neg (fun hc => hstuck hc.2)]
    · have hin : (reassignStep n T acc k).1.op_assigned.getD j [] =
        acc.1.op_assigned.getD j [] := by
        rw [hrow1 j, if_neg (fun hc => hjk hc.1)]
      have hmem : (j ∈ k :: l) ↔ (j ∈ l) := by simp [List.mem_cons, hjk]
      rw [hin]
      exact if_congr (by rw [hmem]) rfl rfl

/-! ### Remaining claim theorems -/

theorem perm_range1 : ([0] : List Nat).Perm (List.range 1) := by decide

theorem perm_range3 : ([0, 1, 2] : List Nat).Perm (List.range 3) := by decide

/-- Amended claim C1: for every valid Problem and either strategy, after
the scheduler completes every operation that has been scheduled
(`start_time ≠ -1`) has a nonnegative start time, consecutive scheduled
operations of a job respect precedence, and no two scheduled operations on
the same machine overlap (half-open semantics).  The restriction to
scheduled operations is forced by the 999999 sentinel of the sequential
selection scan, which can strand operations of a valid problem (see the
counterexample); the parallel scheduler is quantified over every thread
count ≥ 1 and every serialisation order of its critical section. -/
theorem C1_amended_sound (p : JobShopProblem) (hp : ValidProblem p) :
    ScheduleSound p.num_operations (schedule_jobs_sequential p).jobs ∧
    (∀ (T : Nat) (orders : Nat → List Nat), 1 ≤ T →
      (∀ i, (orders i).Perm (List.range T)) →
      ScheduleSound p.num_operations
        (schedule_with_strict_division p T orders).1.jobs) := by
  refine ⟨seq_sound hp, ?_⟩
  intro T orders hT horders
  exact inv_sound (par_completes hp hT horders).2.1.inv

/-- Witness for the amended C1 on the example instance `p4`, sequentially
and with one thread. -/
theorem C1_amended_sound_witness :
    ValidProblem p4 ∧
    0 ≤ (opAt (schedule_jobs_sequential p4).jobs 0 0).start_time ∧
    0 ≤ (opAt (schedule_with_strict_division p4 1 (fun _ => [0])).1.jobs 0 0).start_time := by
  have h := C1_amended_sound p4 (by decide)
  refine ⟨by decide, ?_, ?_⟩
  · exact h.1.1 0 (by decide) 0 (by decide) (by decide)
  · exact (h.2 1 (fun _ => [0]) (by decide) (fun _ => perm_range1)).1 0 (by decide)
      0 (by decide) (by decide)

/-- Counterexample to claim C7 as stated: in the stalled state `stC7` both
jobs 0 and 1 are stuck and two distinct threads (1 and 2) are idle, yet the
stall handler reassigns BOTH stuck jobs to thread 1 — distinct stuck jobs
do not go to distinct idle threads, because the progressed flags are never
updated during the reassignment pass. -/
theorem C7_counterexample :
    stC7.scheduled_ops.getD 0 0 < 1 ∧ stC7.scheduled_ops.getD 1 0 < 1 ∧
    stC7.thread_worked.getD 1 false = false ∧
    stC7.thread_worked.getD 2 false = false ∧
    (reassignStuck 1 3 stC7).1.op_assigned = [[1], [1]] := by
  refine ⟨by decide, by decide, by decide, by decide, by decide⟩

/-- Amended claim C7: in a stalled round, every job still holding
unscheduled operations has its whole ownership row reassigned to the SAME
thread — the lowest-indexed thread whose progressed flag is false — while
jobs with no remaining operations keep their row; the flags are not
updated between reassignments. -/
theorem C7_amended_reassign_first_idle (n T : Nat) (st : ParState) (t0 : Nat)
    (hfi : firstIdle T st.thread_worked = some t0)
    (hlen : st.jobs.length ≤ st.op_assigned.length) :
    ∀ j, j < st.jobs.length →
      (reassignStuck n T st).1.op_assigned.getD j [] =
        (if st.scheduled_ops.getD j 0 < n then List.replicate n t0
         else st.op_assigned.getD j []) := by
  intro j hj
  have h := reassign_fold_char (n := n) (List.range st.jobs.length) (st, true)
    (List.nodup_range _) hfi
    (fun k hk => lt_of_lt_of_le (List.mem_range.mp hk) hlen)
  rw [show reassignStuck n T st =
    (List.range st.jobs.length).foldl (reassignStep n T) (st, true) from rfl]
  rw [h.2.2 j]
  have hmem : (j ∈ List.range st.jobs.length) = True := by
    simp [List.mem_range, hj]
  by_cases hstuck : st.scheduled_ops.getD j 0 < n
  · rw [if_pos ⟨List.mem_range.mpr hj, hstuck⟩, if_pos hstuck]
  · rw [if_neg (fun hc => hstuck hc.2), if_neg hstuck]

/-- Witness for the amended C7 on `stC7`: with first idle thread 1, both
stuck jobs' rows become `[1]`. -/
theorem C7_amended_reassign_first_idle_witness :
    (reassignStuck 1 3 stC7).1.op_assigned.getD 0 [] = List.replicate 1 1 ∧
    (reassignStuck 1 3 stC7).1.op_assigned.getD 1 [] = List.replicate 1 1 := by
  constructor
  · rw [C7_amended_reassign_first_idle 1 3 stC7 1 (by decide) (by decide) 0
      (by decide)]
    decide
  · rw [C7_amended_reassign_first_idle 1 3 stC7 1 (by decide) (by decide) 1
      (by decide)]
    decide

/-- Claim C8: the deadlock fallback completes every remaining operation via
single-threaded commits in job-major, operation-minor order (the definition
of `fallbackComplete`), preserving the scheduling invariant, so the run
ends with every operation scheduled and a conflict-free schedule; and for
every valid Problem with more threads than jobs the parallel scheduler
returns success with all operations scheduled and a conflict-free
schedule. -/
theorem C8_deadlock_fallback_and_complete :
    (∀ (n T L : Nat) (st : ParState), PInv n T L st →
      (∀ j, j < L → (fallbackComplete n st).scheduled_ops.getD j 0 = n) ∧
      ScheduleSound n (fallbackComplete n st).jobs ∧
      (∀ j, j < L → ∀ i, i < n →
        (opAt (fallbackComplete n st).jobs j i).start_time ≠ -1)) ∧
    (∀ (p : JobShopProblem) (T : Nat) (orders : Nat → List Nat),
      ValidProblem p → p.jobs.length < T →
      (∀ i, (orders i).Perm (List.range T)) →
      (schedule_with_strict_division p T orders).2 = true ∧
      (∀ j, j < p.jobs.length → ∀ i, i < p.num_operations →
        (opAt (schedule_with_strict_division p T orders).1.jobs j i).start_time ≠ -1) ∧
      ScheduleSound p.num_operations
        (schedule_with_strict_division p T orders).1.jobs) := by
  constructor
  · intro n T L st hP
    obtain ⟨hP2, hall⟩ := fallbackComplete_all hP
    refine ⟨hall, inv_sound hP2.inv, ?_⟩
    intro j hj i hi
    have hjlen : j < (fallbackComplete n st).jobs.length := by
      rw [hP2.jobs_len]; exact hj
    rw [hP2.inv.sched_iff j hjlen i hi, hall j hj]
    exact hi
  · intro p T orders hp hjT horders
    have hT : 1 ≤ T := by
      have := hp.1
      omega
    obtain ⟨h1, _, _, h4⟩ := par_completes hp hT horders
    exact ⟨h1, h4, inv_sound (par_completes hp hT horders).2.1.inv⟩

/-- Witness for C8: the fallback on the freshly initialised `p4` state
schedules both operations of job 0, and the parallel scheduler with 3
threads on the 2-job instance `p4` returns success. -/
theorem C8_deadlock_fallback_and_complete_witness :
    (fallbackComplete 2 (initParState p4 3)).scheduled_ops.getD 0 0 = 2 ∧
    (schedule_with_strict_division p4 3 (fun _ => [0, 1, 2])).2 = true := by
  constructor
  · exact (C8_deadlock_fallback_and_complete.1 2 3 2 (initParState p4 3)
      (init_pinv (p := p4) (by decide) (by omega))).1 0 (by decide)
  · exact (C8_deadlock_fallback_and_complete.2 p4 3 (fun _ => [0, 1, 2])
      (by decide) (by decide) (fun _ => perm_range3)).1

/-- Counterexample to claim C9 as stated: for the loadable zero-job problem
`pZero` (total operation count 0) and requested thread count 1, the final
clamp raises the effective thread count to 1, which exceeds the total
operation count. -/
theorem C9_counterexample :
    totalOps pZero = 0 ∧ effective_num_threads 1 (totalOps pZero) = 1 ∧
    ¬ (effective_num_threads 1 (totalOps pZero) ≤ totalOps pZero) :=
  ⟨by decide, by decide, by decide⟩

/-- Amended claim C9: for every requested thread count ≥ 1 and every loaded
Problem with at least one operation, the effective thread count is at most
the total operation count, at least 1, and capped at 8 when the total
operation count is below 100 (when the total operation count is 0 the
final clamp instead forces the effective count to 1). -/
theorem C9_amended_clamp (nt total : Nat) (h1 : 1 ≤ nt) (h2 : 1 ≤ total) :
    effective_num_threads nt total ≤ total ∧
    1 ≤ effective_num_threads nt total ∧
    (total < 100 → effective_num_threads nt total ≤ 8) := by
  simp only [effective_num_threads]
  split_ifs <;> omega

/-- Witness for the amended C9 at 100 requested threads on 50 operations:
the effective count is clamped into [1, 8] and below the total. -/
theorem C9_amended_clamp_witness :
    (1 : Nat) ≤ 100 ∧ (1 : Nat) ≤ 50 ∧ effective_num_threads 100 50 ≤ 50 ∧
    1 ≤ effective_num_threads 100 50 ∧ effective_num_threads 100 50 ≤ 8 := by
  have h := C9_amended_clamp 100 50 (by decide) (by decide)
  exact ⟨by decide, by decide, h.1, h.2.1, h.2.2 (by decide)⟩

end JobShop
